import Mathlib

/-!
Verification of the watchapi route extractor against its specification.

The definitions below are shallow embeddings of the TypeScript sources:
* `src/packages/parsers/src/trpc/trpc-parser.ts` (class style) and the
  char-identical function-style copy in `src/unnamed/part_005`;
* `src/packages/parsers/src/next-app/next-app-parser.ts`;
* the Next.js Pages Router parser in `src/unnamed/part_005`;
* the shared `BaseParser` in `src/packages/parsers/src/next-app/next-app-parser.ts`
  (second document in that file).

Helpers that live in repository files not present under `src/`
(`next-shared.ts`, `trpc-detection.ts`, `lib/constants.ts`) are modelled from
the specification; every such definition carries a doc comment starting with
`Modelled from the spec:`.
-/

namespace WatchApi

/-! ## Small utilities shared by the embeddings

JavaScript `Map` objects are modelled as association lists that keep the
insertion order of keys; `Map.set` overwrites in place, `Map.get` returns the
stored value.  JavaScript `Set<string>` objects are modelled as duplicate-free
lists in insertion order. -/

def mapGet {α : Type} (m : List (String × α)) (k : String) : Option α :=
  match m with
  | [] => none
  | (k2, v2) :: rest => if k2 = k then some v2 else mapGet rest k

def mapSet {α : Type} (m : List (String × α)) (k : String) (v : α) : List (String × α) :=
  match m with
  | [] => [(k, v)]
  | (k2, v2) :: rest => if k2 = k then (k, v) :: rest else (k2, v2) :: mapSet rest k v

def insertUnique (acc : List String) (m : String) : List String :=
  if m ∈ acc then acc else acc ++ [m]

/-- `String.startsWith`, implemented structurally so that it evaluates inside
the kernel. -/
def strStartsWith (s pre : String) : Bool :=
  pre.toList.isPrefixOf s.toList

/-- `String.endsWith`, implemented structurally. -/
def strEndsWith (s suf : String) : Bool :=
  suf.toList.isSuffixOf s.toList

/-- `String.drop`, implemented structurally. -/
def strDrop (s : String) (n : Nat) : String :=
  String.mk (s.toList.drop n)

/-- `String.dropRight`, implemented structurally. -/
def strDropRight (s : String) (n : Nat) : String :=
  String.mk (s.toList.take (s.toList.length - n))

def splitSlashGo : List Char → List Char → List String
  | acc, [] => [String.mk acc.reverse]
  | acc, c :: rest =>
    if c = '/' then String.mk acc.reverse :: splitSlashGo [] rest
    else splitSlashGo (c :: acc) rest

/-- `String.splitOn "/"`, implemented structurally. -/
def splitSlash (s : String) : List String :=
  splitSlashGo [] s.toList

/-- `String.intercalate "/"`, implemented structurally. -/
def joinSlash : List String → String
  | [] => ""
  | [s] => s
  | s :: rest => s ++ "/" ++ joinSlash rest

/-- `String.toUpperCase`, implemented structurally. -/
def strToUpper (s : String) : String :=
  String.mk (s.toList.map Char.toUpper)

/-! ## JSON values

Body examples travel through the code as JSON strings produced by the schema
interpreter and re-parsed with `JSON.parse`.  We model them post-parse, as a
JSON value tree; `JSON.parse` of the serialized example is the identity at
this level.  Numbers are restricted to integers, which covers every example
value the schema interpreter emits for the claims under study. -/

inductive Json where
  | null
  | bool (b : Bool)
  | num (n : Int)
  | str (s : String)
  | arr (elems : List Json)
  | obj (fields : List (String × Json))

/-- JS `String(value)` for the primitive JSON values that reach the query-param
projection (`null` is handled separately by the code). -/
def jsPrimToString : Json → Option String
  | .bool b => some (if b then "true" else "false")
  | .num n => some (toString n)
  | .str s => some s
  | _ => none

/-! ## tRPC data model and route emission

From `trpc-parser.ts` (`TrpcProcedureNode`, `convertBodyToQueryParams`,
`convertToRoutes`).  `ProcedureMethod` is the `"query" | "mutation"` union. -/

inductive ProcedureMethod where
  | query
  | mutation
deriving DecidableEq

structure TrpcProcedureNode where
  router : String
  procedure : String
  method : ProcedureMethod
  input : Bool
  output : Bool
  file : String
  line : Nat
  bodyExample : Option Json
  queryParams : Option (List (String × String))
  headers : List (String × String)

structure TrpcRouterMeta where
  name : String
  file : String
  line : Nat
  linesOfCode : Nat

structure RouterMountEdge where
  parent : String
  property : String
  target : String
deriving DecidableEq

/-- The public `ParsedRoute` record.  `body` is kept as a parsed JSON value
(the code stores its serialization). -/
structure ParsedRoute where
  name : String
  path : String
  method : String
  filePath : String
  type : String
  headers : Option (List (String × String))
  query : Option (List (String × String))
  body : Option Json

/-- `path.join(rootDir, file)` for the already-relative paths used here. -/
def joinPath (rootDir file : String) : String :=
  rootDir ++ "/" ++ file

/-- The loop body of `convertBodyToQueryParams`: `null`/`undefined` values
become `""`, object values are skipped, everything else goes through JS
`String(...)`. -/
def queryParamEntry (kv : String × Json) : Option (String × String) :=
  match kv.2 with
  | .null => some (kv.1, "")
  | .obj _ => none
  | .arr _ => none
  | v => (jsPrimToString v).map (fun s => (kv.1, s))

/-- `TrpcParser.convertBodyToQueryParams`, applied to the parsed body example.
The string input of the code is modelled by its parsed JSON value; the
`JSON.parse` failure branch cannot occur at this level.  Non-object inputs
(including `null` and arrays) return `undefined`, and the result is
`undefined` unless at least one key survives. -/
def convertBodyToQueryParams (parsed : Json) : Option (List (String × String)) :=
  match parsed with
  | .obj fields =>
    let queryParams := fields.filterMap queryParamEntry
    if queryParams.length > 0 then some queryParams else none
  | _ => none

/-- `TrpcParser.convertToRoutes`, one node.  JS truthiness of
`node.bodyExample` (a JSON string, never empty when defined) is `isSome`. -/
def convertTrpcNode (rootDir : String) (node : TrpcProcedureNode) : ParsedRoute :=
  let routePath :=
    if node.router ≠ "" then "/api/trpc/" ++ node.router ++ "." ++ node.procedure
    else "/api/trpc/" ++ node.procedure
  let method := if node.method = .query then "GET" else "POST"
  let queryParams :=
    if method = "GET" ∧ node.bodyExample.isSome then
      node.bodyExample.bind convertBodyToQueryParams
    else node.queryParams
  let body := if method = "POST" then node.bodyExample else none
  { name := method ++ " " ++ routePath
    path := routePath
    method := method
    filePath := joinPath rootDir node.file
    type := "trpc"
    headers := if node.headers.length > 0 then some node.headers else none
    query := queryParams
    body := body }

def convertToRoutes (rootDir : String) (nodes : List TrpcProcedureNode) : List ParsedRoute :=
  nodes.map (convertTrpcNode rootDir)

/-! ## Router-composition resolution

From `TrpcParser.resolveRouterPaths` / the identical function-style
`resolveRouterPaths` in `src/unnamed/part_005`.  The recursive `resolve`
closure with its memo map (`resolved`) and in-progress set (`resolving`) is
embedded with explicit state passing and a fuel argument; the fuel is shown
sufficient below (the code's recursion terminates because the in-progress set
only ever grows along a call chain). -/

/-- JS `a || b` on strings: the left operand unless it is empty. -/
def strOr (a b : String) : String :=
  if a = "" then b else a

/-- Modelled from the spec: `normalizeRouterName` from `trpc-detection.ts`
(that file is not under `src/`): §4.6.2 — strip a trailing `Router`,
lowercase the first letter.  An empty result is possible and triggers the
callers' fallbacks. -/
def normalizeRouterName (name : String) : String :=
  let base := if strEndsWith name "Router" then strDropRight name 6 else name
  match base.toList with
  | [] => ""
  | c :: rest => String.mk (c.toLower :: rest)

/-- The `byNormalized` map: for each router, `normalizeRouterName(name) || name ↦ name`. -/
def buildByNormalized (routers : List TrpcRouterMeta) : List (String × String) :=
  routers.foldl (fun m r => mapSet m (strOr (normalizeRouterName r.name) r.name) r.name) []

/-- The key under which a mount edge is indexed: the first candidate
(normalized target, then normalized property) that maps to a router name
(JS `find(Boolean)` skips empty strings), else the first non-empty candidate,
else none (the mount is dropped). -/
def mountKey (byNorm : List (String × String)) (mount : RouterMountEdge) : Option String :=
  let candidates :=
    ([normalizeRouterName mount.target, normalizeRouterName mount.property]).filter (· ≠ "")
  let targetName := (candidates.filterMap (fun c => mapGet byNorm c)).find? (fun v => v ≠ "")
  match targetName with
  | some t => some t
  | none => candidates.head?

/-- The `incoming` index: child-key ↦ list of mount edges in source-scan order. -/
def buildIncoming (byNorm : List (String × String)) (mounts : List RouterMountEdge) :
    List (String × List RouterMountEdge) :=
  mounts.foldl (fun inc mount =>
    match mountKey byNorm mount with
    | none => inc
    | some key => mapSet inc key (((mapGet inc key).getD []) ++ [mount])) []

/-- The `roots` set: routers with no incoming edges, added under both the
declared name and its normalization. -/
def computeRoots (incoming : List (String × List RouterMountEdge))
    (routers : List TrpcRouterMeta) : List String :=
  routers.foldl (fun rs r =>
    let norm := strOr (normalizeRouterName r.name) r.name
    if (mapGet incoming r.name).isNone ∧ (mapGet incoming norm).isNone then
      insertUnique (insertUnique rs r.name) norm
    else rs) []

/-- The lookup `incoming.get(name) ?? incoming.get(normalized) ?? []`. -/
def incomingEdges (incoming : List (String × List RouterMountEdge))
    (name normalized : String) : List RouterMountEdge :=
  match mapGet incoming name with
  | some l => l
  | none => (mapGet incoming normalized).getD []

/-- The recursive `resolve` closure.  Returns the updated memo map together
with the resolved path; the in-progress set is threaded downward only (the
code restores it before returning). -/
def resolveGo (incoming : List (String × List RouterMountEdge)) (roots : List String) :
    Nat → List String → List (String × String) → String →
    List (String × String) × String
  | 0, _, resolved, name => (resolved, name)
  | fuel + 1, resolving, resolved, name =>
    match mapGet resolved name with
    | some v => (resolved, v)
    | none =>
      if name ∈ resolving then (resolved, name)
      else
        let normalized := strOr (normalizeRouterName name) name
        let edges := incomingEdges incoming name normalized
        match edges.head? with
        | none =>
          let base := if name ∈ roots ∨ normalized ∈ roots then "" else name
          (mapSet resolved name base, base)
        | some edge =>
          let res := resolveGo incoming roots fuel (name :: resolving) resolved edge.parent
          let routePath :=
            if res.2 ≠ "" then res.2 ++ "." ++ edge.property else edge.property
          (mapSet res.1 name routePath, routePath)

/-- Every name the recursion can be called on: edge parents and router names. -/
def routerUniverse (routers : List TrpcRouterMeta) (mounts : List RouterMountEdge) :
    List String :=
  mounts.map (·.parent) ++ routers.map (·.name)

def resolveFuel (routers : List TrpcRouterMeta) (mounts : List RouterMountEdge) : Nat :=
  (routerUniverse routers mounts).length + 1

def resolveRouterPathsFueled (fuel : Nat) (routers : List TrpcRouterMeta)
    (mounts : List RouterMountEdge) : List (String × String) :=
  let byNorm := buildByNormalized routers
  let incoming := buildIncoming byNorm mounts
  let roots := computeRoots incoming routers
  routers.foldl (fun resolved r => (resolveGo incoming roots fuel [] resolved r.name).1) []

/-- `TrpcParser.resolveRouterPaths`: the router-path map. -/
def resolveRouterPaths (routers : List TrpcRouterMeta) (mounts : List RouterMountEdge) :
    List (String × String) :=
  resolveRouterPathsFueled (resolveFuel routers mounts) routers mounts

/-- The write-back loop of `TrpcParser.parseRoutes`: a node's `router` field is
replaced by its mapped path only when the map has an entry and that entry is
non-empty. -/
def applyRouterPathMap (pathMap : List (String × String))
    (nodes : List TrpcProcedureNode) : List TrpcProcedureNode :=
  nodes.map (fun node =>
    match mapGet pathMap node.router with
    | some mapped => if mapped ≠ "" then { node with router := mapped } else node
    | none => node)

/-- End of `TrpcParser.parseRoutes`: resolve router paths, write them back,
convert to routes. -/
def emitTrpcRoutes (rootDir : String) (routers : List TrpcRouterMeta)
    (mounts : List RouterMountEdge) (nodes : List TrpcProcedureNode) : List ParsedRoute :=
  convertToRoutes rootDir (applyRouterPathMap (resolveRouterPaths routers mounts) nodes)

/-- Truncate every incoming-edge list to its first element; used to state that
resolution only ever consults the first incoming edge of a child. -/
def truncIncoming (incoming : List (String × List RouterMountEdge)) :
    List (String × List RouterMountEdge) :=
  incoming.map (fun kv => (kv.1, kv.2.take 1))

/-! ## A TypeScript expression fragment

The syntactic shapes the parsers discriminate on: identifiers, string
literals, no-substitution templates, property accesses, binary expressions
with operator `===`/`==` (`binaryEq`) or any other operator (`binaryOther`),
switch statements, array literals, `as`/assertion and parenthesized
expressions, arrow functions / function expressions, plus an opaque node with
children for everything else.  A switch clause is `(some label, body)` for a
case clause and `(none, body)` for the default clause. -/

inductive Ts where
  | ident (name : String)
  | strLit (value : String)
  | tmplLit (value : String)
  | propAccess (obj : Ts) (propName : String)
  | binaryEq (l : Ts) (r : Ts)
  | binaryOther (l : Ts) (r : Ts)
  | switchOn (scrut : Ts) (clauses : List (Option Ts × List Ts))
  | arrLit (elems : List Ts)
  | asExpr (inner : Ts)
  | parenExpr (inner : Ts)
  | arrowFn (children : List Ts)
  | funcExprNode (children : List Ts)
  | node (children : List Ts)

mutual

/-- `node.forEachDescendant` visitation order: every proper descendant. -/
def Ts.descendants : Ts → List Ts
  | .ident _ => []
  | .strLit _ => []
  | .tmplLit _ => []
  | .propAccess obj propName => obj :: obj.descendants ++ [Ts.ident propName]
  | .binaryEq l r => l :: l.descendants ++ r :: r.descendants
  | .binaryOther l r => l :: l.descendants ++ r :: r.descendants
  | .switchOn scrut clauses => scrut :: scrut.descendants ++ Ts.clausesDescendants clauses
  | .arrLit elems => Ts.listDescendants elems
  | .asExpr inner => inner :: inner.descendants
  | .parenExpr inner => inner :: inner.descendants
  | .arrowFn children => Ts.listDescendants children
  | .funcExprNode children => Ts.listDescendants children
  | .node children => Ts.listDescendants children

def Ts.listDescendants : List Ts → List Ts
  | [] => []
  | t :: ts => t :: t.descendants ++ Ts.listDescendants ts

def Ts.clausesDescendants : List (Option Ts × List Ts) → List Ts
  | [] => []
  | (some e, body) :: rest =>
    e :: e.descendants ++ Ts.listDescendants body ++ Ts.clausesDescendants rest
  | (none, body) :: rest => Ts.listDescendants body ++ Ts.clausesDescendants rest

end

/-! ## Shared pattern helpers (modelled from the spec) -/

/-- Modelled from the spec: `NEXTJS_HTTP_METHODS` from `lib/constants.ts`
(not under `src/`) — the recognized verbs of §3. -/
def NEXTJS_HTTP_METHODS : List String :=
  ["GET", "POST", "PUT", "PATCH", "DELETE", "HEAD", "OPTIONS"]

/-- Modelled from the spec: `extractMethodLiteral` from `next-shared.ts`
(not under `src/`) — §4.2: the upper-cased method name when the node is a
string literal or no-substitution template whose value is a recognized verb,
else nil. -/
def extractMethodLiteral : Ts → Option String
  | .strLit v =>
    let u := strToUpper v
    if u ∈ NEXTJS_HTTP_METHODS then some u else none
  | .tmplLit v =>
    let u := strToUpper v
    if u ∈ NEXTJS_HTTP_METHODS then some u else none
  | _ => none

/-- Modelled from the spec: `shouldIncludeBody` from `next-shared.ts`
(not under `src/`) — §3: body is absent for the methods that by convention
carry no body (GET, HEAD, OPTIONS, DELETE). -/
def shouldIncludeBody (method : String) : Bool :=
  ¬ method ∈ ["GET", "HEAD", "OPTIONS", "DELETE"]

/-! ## Next.js Pages Router method detection

From `NextPagesParser` in `src/unnamed/part_005`: `collectReqParamNames`,
`isReqMethodExpression`, `detectExportedMethods`,
`extractMethodsFromExpression` and `detectPagesRouterMethods`.  A source file
is modelled by its variable declarations (name, whether the enclosing
statement is exported, optional initializer expression). -/

structure VarDeclModel where
  name : String
  exported : Bool
  init : Option Ts

structure PagesFileModel where
  varDecls : List VarDeclModel

/-- `sourceFile.getVariableDeclaration(name)`: the first declaration with the
given name. -/
def getVariableDeclaration (file : PagesFileModel) (name : String) : Option VarDeclModel :=
  file.varDecls.find? (fun d => d.name = name)

/-- `NextPagesParser.collectReqParamNames`: `req`, `request`, plus the
handler's first parameter name when it is a plain identifier.  `params` is
the list of identifier parameter names of the handler. -/
def collectReqParamNames (params : List String) : List String :=
  match params.head? with
  | some p => insertUnique ["req", "request"] p
  | none => ["req", "request"]

/-- `NextPagesParser.isReqMethodExpression`: a property access `<id>.method`
with `<id>` among the request parameter names. -/
def isReqMethodExpr (reqNames : List String) (t : Ts) : Bool :=
  match t with
  | .propAccess (.ident id) propName => propName = "method" ∧ id ∈ reqNames
  | _ => false

/-- `NextPagesParser.extractMethodsFromExpression`.  The code recurses through
`as`-expressions, type assertions, parenthesized expressions and identifier
references to other variable declarations; `fuel` bounds that (unbounded)
recursion and every theorem below only needs direct array literals, which
consume no fuel. -/
def extractMethodsFromExpression (file : PagesFileModel) :
    Nat → Option Ts → List String
  | _, none => []
  | fuel, some t =>
    match t with
    | .asExpr inner =>
      match fuel with
      | 0 => []
      | f + 1 => extractMethodsFromExpression file f (some inner)
    | .parenExpr inner =>
      match fuel with
      | 0 => []
      | f + 1 => extractMethodsFromExpression file f (some inner)
    | .ident nm =>
      match fuel with
      | 0 => []
      | f + 1 =>
        match getVariableDeclaration file nm with
        | some d => extractMethodsFromExpression file f d.init
        | none => []
    | .arrLit elems =>
      elems.foldl (fun ms e =>
        match extractMethodLiteral e with
        | some m => if m ∈ ms then ms else ms ++ [m]
        | none => ms) []
    | _ => []

/-- `NextPagesParser.detectExportedMethods`: union over every exported
variable declaration named `methods`. -/
def detectExportedMethods (file : PagesFileModel) (fuel : Nat) : List String :=
  file.varDecls.foldl (fun ms d =>
    if d.name = "methods" ∧ d.exported then
      (extractMethodsFromExpression file fuel d.init).foldl insertUnique ms
    else ms) []

/-- One step of the `forEachDescendant` callback in
`NextPagesParser.detectPagesRouterMethods`. -/
def stepMethods (reqNames : List String) (acc : List String) (d : Ts) : List String :=
  match d with
  | .binaryEq l r =>
    match isReqMethodExpr reqNames l, extractMethodLiteral r with
    | true, some m => insertUnique acc m
    | _, _ =>
      match isReqMethodExpr reqNames r, extractMethodLiteral l with
      | true, some m => insertUnique acc m
      | _, _ => acc
  | .switchOn scrut clauses =>
    if isReqMethodExpr reqNames scrut then
      clauses.foldl (fun acc2 cl =>
        match cl.1 with
        | some e =>
          match extractMethodLiteral e with
          | some m => insertUnique acc2 m
          | none => acc2
        | none => acc2) acc
    else acc
  | _ => acc

/-- `NextPagesParser.detectPagesRouterMethods`: exported `methods` array first,
then a scan over every descendant of the handler. -/
def detectPagesRouterMethods (file : PagesFileModel) (params : List String)
    (handler : Ts) (fuel : Nat) : List String :=
  let reqNames := collectReqParamNames params
  let exported := detectExportedMethods file fuel
  (Ts.descendants handler).foldl (stepMethods reqNames) (exported.foldl insertUnique [])

/-- Claim-side characterization (C5): a method detected through an equality
comparison — one side is `<req>.method`, the other a recognized method
literal. -/
def eqComparisonDetects (reqNames : List String) (d : Ts) (m : String) : Prop :=
  match d with
  | .binaryEq l r =>
    (isReqMethodExpr reqNames l = true ∧ extractMethodLiteral r = some m) ∨
    (isReqMethodExpr reqNames r = true ∧ extractMethodLiteral l = some m)
  | _ => False

/-- Claim-side characterization (C5): a method detected as a recognized case
label of a `switch (<req>.method)` statement. -/
def switchCaseDetects (reqNames : List String) (d : Ts) (m : String) : Prop :=
  match d with
  | .switchOn scrut clauses =>
    isReqMethodExpr reqNames scrut = true ∧
    ∃ cl ∈ clauses, ∃ e, cl.1 = some e ∧ extractMethodLiteral e = some m
  | _ => False

/-! ## Route-path derivation for the Next.js parsers -/

structure DynamicSegment where
  name : String
  isCatchAll : Bool
  isOptional : Bool
deriving DecidableEq

/-- Modelled from the spec: dynamic-segment classification from
`next-shared.ts` (not under `src/`) — §4.2: `[[...x]]` optional catch-all,
`[...x]` catch-all, `[x]` required parameter. -/
def parseDynamicSegment (seg : String) : Option DynamicSegment :=
  if strStartsWith seg "[[..." ∧ strEndsWith seg "]]" then
    some ⟨strDropRight (strDrop seg 5) 2, true, true⟩
  else if strStartsWith seg "[..." ∧ strEndsWith seg "]" then
    some ⟨strDropRight (strDrop seg 4) 1, true, false⟩
  else if strStartsWith seg "[" ∧ strEndsWith seg "]" then
    some ⟨strDropRight (strDrop seg 1) 1, false, false⟩
  else none

/-- Modelled from the spec: `extractDynamicSegments` (§4.2) — bracket
segments in directory order. -/
def extractDynamicSegments (routePath : String) : List DynamicSegment :=
  (splitSlash routePath).filterMap parseDynamicSegment

/-- Modelled from the spec: segment conversion (§4.2) — `[x]`→`:x`,
`[...x]`→`:x*`, `[[...x]]`→`:x?`. -/
def convertSegment (seg : String) : String :=
  match parseDynamicSegment seg with
  | some d =>
    if d.isOptional then ":" ++ d.name ++ "?"
    else if d.isCatchAll then ":" ++ d.name ++ "*"
    else ":" ++ d.name
  | none => seg

def convertDynamicSegments (routePath : String) : String :=
  joinSlash ((splitSlash routePath).map convertSegment)

/-- Collapse runs of `/` into a single `/`; the fuel equals the input length
and is always sufficient. -/
def collapseGo : Nat → List Char → List Char
  | 0, l => l
  | _, [] => []
  | fuel + 1, c :: rest =>
    if c = '/' then '/' :: collapseGo fuel (rest.dropWhile (fun c2 => c2 = '/'))
    else c :: collapseGo fuel rest

/-- Modelled from the spec: `normalizeRoutePath` (§4.2) — collapse duplicate
slashes, strip the trailing slash except for the root, ensure a leading
slash. -/
def normalizeRoutePath (p : String) : String :=
  let collapsed := String.mk (collapseGo p.length p.toList)
  let noTrail :=
    if collapsed.length > 1 ∧ strEndsWith collapsed "/" then strDropRight collapsed 1
    else collapsed
  if strStartsWith noTrail "/" then noTrail else "/" ++ noTrail

/-- The regex `^(src\/)?app` replacement in `extractRoutePath`. -/
def stripAppPre (rel : String) : String :=
  if strStartsWith rel "src/app" then strDrop rel 7
  else if strStartsWith rel "app" then strDrop rel 3
  else rel

/-- The regex `\/route\.(ts|js)$` replacement in `extractRoutePath`. -/
def stripRouteSuffix (p : String) : String :=
  if strEndsWith p "/route.ts" then strDropRight p 9
  else if strEndsWith p "/route.js" then strDropRight p 9
  else p

structure RouteDetectionResult where
  routePath : String
  dynamicSegments : List DynamicSegment
deriving DecidableEq

/-- The pure part of `extractRoutePath` (next-app-parser.ts), as a function of
the file path relative to the workspace root. -/
def extractRoutePathPure (relPath : String) : RouteDetectionResult :=
  let p1 := stripAppPre relPath
  let p2 := stripRouteSuffix p1
  let p3 := if strStartsWith p2 "/" then strDrop p2 1 else p2
  let routePath := if p3 ≠ "" then "/" ++ p3 else "/"
  { routePath := convertDynamicSegments routePath
    dynamicSegments := extractDynamicSegments routePath }

abbrev RouteCache := List (String × RouteDetectionResult)

/-- The cache key `` `${rootDir}::${filePath}` `` with
`filePath = rootDir + "/" + relPath`. -/
def routeCacheKey (rootDir relPath : String) : String :=
  rootDir ++ "::" ++ (rootDir ++ "/" ++ relPath)

/-- `extractRoutePath` including the module-level `routePathCache`. -/
def extractRoutePathCached (rootDir relPath : String) (cache : RouteCache) :
    RouteDetectionResult × RouteCache :=
  let key := routeCacheKey rootDir relPath
  match mapGet cache key with
  | some cached => (cached, cache)
  | none =>
    let result := extractRoutePathPure relPath
    (result, mapSet cache key result)

def listHasInfix (pat : List Char) : List Char → Bool
  | [] => pat.isEmpty
  | c :: rest => pat.isPrefixOf (c :: rest) || listHasInfix pat rest

def strContains (s pat : String) : Bool :=
  listHasInfix pat.toList s.toList

/-- `isAppRouterFile` (next-app-parser.ts). -/
def isAppRouterFile (filePath : String) : Bool :=
  strContains filePath "/app/" ∧
    (strEndsWith filePath "/route.ts" ∨ strEndsWith filePath "/route.js")

/-! ## Next.js App Router parser -/

/-- Identity of the node chosen as a method's handler: an exported function
declaration, an exported variable initializer, a named-export declaration, or
the source file itself. -/
inductive HandlerNodeRef where
  | funcDecl (id : Nat) (line : Nat)
  | varInit (id : Nat) (line : Nat)
  | exptDecl (id : Nat) (line : Nat)
  | srcFile
deriving DecidableEq

/-- `node.getStartLineNumber()`; a source file starts at line 1. -/
def HandlerNodeRef.lineOf : HandlerNodeRef → Nat
  | .funcDecl _ l => l
  | .varInit _ l => l
  | .exptDecl _ l => l
  | .srcFile => 1

/-- Modelled from the spec: the result shape of `analyzeHandler` from
`next-shared.ts` (not under `src/`).  §3 lists these analysis fields of a
`NextHandlerRecord`; they are pure functions of the handler node and the spec
treats them as internal diagnostics (§9). -/
structure HandlerAnalysis where
  handlerLines : Nat
  usesDb : Bool
  hasErrorHandling : Bool
  hasValidation : Bool
  headers : List (String × String)
  queryParams : Option (List (String × String))
  bodyExample : Option Json

structure FuncDeclModel where
  name : String
  exported : Bool
  id : Nat
  line : Nat

structure AppVarDeclModel where
  name : String
  exported : Bool
  init : Option Ts
  id : Nat
  line : Nat

structure ExportedDeclModel where
  isFunctionOrVarDecl : Bool
  id : Nat
  line : Nat

/-- A `route.{ts,js}` source file as the App Router parser inspects it.
`analyzeOf` is the (pure) handler analysis of `next-shared.ts` applied to a
node of this file. -/
structure AppFileModel where
  relPath : String
  isTrpcContent : Bool
  functions : List FuncDeclModel
  varDecls : List AppVarDeclModel
  exportedDecls : List (String × List ExportedDeclModel)
  middlewareExported : Bool
  serverActionDirective : Bool
  analyzeOf : HandlerNodeRef → HandlerAnalysis

/-- Whether a variable initializer is an arrow function or function
expression. -/
def isFunctionLikeInit : Option Ts → Bool
  | some (.arrowFn _) => true
  | some (.funcExprNode _) => true
  | _ => false

/-- `collectHttpMethodHandlers` (next-app-parser.ts): exported verb-named
function declarations, then exported verb-named variable declarations bound
to function expressions, then verb-named export declarations; later finds
overwrite earlier map entries in place. -/
def collectHttpMethodHandlers (file : AppFileModel) : List (String × HandlerNodeRef) :=
  let m1 := file.functions.foldl (fun m f =>
    if f.exported ∧ f.name ∈ NEXTJS_HTTP_METHODS then
      mapSet m f.name (.funcDecl f.id f.line)
    else m) []
  let m2 := file.varDecls.foldl (fun m d =>
    if d.name ∈ NEXTJS_HTTP_METHODS ∧ d.exported ∧ isFunctionLikeInit d.init then
      mapSet m d.name (.varInit d.id d.line)
    else m) m1
  file.exportedDecls.foldl (fun m nd =>
    if nd.1 ∈ NEXTJS_HTTP_METHODS then
      nd.2.foldl (fun m2 dd =>
        if dd.isFunctionOrVarDecl then mapSet m2 nd.1 (.exptDecl dd.id dd.line) else m2) m
    else m) m2

/-- View of an App Router file's variable declarations for the shared
methods-array extraction (`detectExportedMethods` /
`extractMethodsFromExpression` are the same algorithm in both Next
parsers). -/
def appFileVarView (file : AppFileModel) : PagesFileModel :=
  ⟨file.varDecls.map (fun d => ⟨d.name, d.exported, d.init⟩)⟩

def detectExportedMethodsApp (file : AppFileModel) (fuel : Nat) : List String :=
  detectExportedMethods (appFileVarView file) fuel

/-- `methodHandlers.get(method) ?? sourceFile` in `parseAppRouterFile`. -/
def chosenHandlerNode (file : AppFileModel) (method : String) : HandlerNodeRef :=
  (mapGet (collectHttpMethodHandlers file) method).getD .srcFile

structure NextAppRouteHandler where
  path : String
  method : String
  file : String
  line : Nat
  isDynamic : Bool
  dynamicSegments : List String
  hasMiddleware : Bool
  isServerAction : Bool
  handlerLines : Nat
  usesDb : Bool
  hasErrorHandling : Bool
  hasValidation : Bool
  headers : List (String × String)
  queryParams : Option (List (String × String))
  bodyExample : Option Json

/-- The method set `new Set([...methodHandlers.keys(), ...exportedMethods])`
of `parseAppRouterFile`. -/
def appMethodSet (file : AppFileModel) (fuel : Nat) : List String :=
  (detectExportedMethodsApp file fuel).foldl insertUnique
    (((collectHttpMethodHandlers file).map (·.1)).foldl insertUnique [])

/-- The record built by the `methodSet.forEach` body of `parseAppRouterFile`. -/
def buildAppHandler (file : AppFileModel) (rd : RouteDetectionResult)
    (method : String) : NextAppRouteHandler :=
  let handlerNode := chosenHandlerNode file method
  let analysis := file.analyzeOf handlerNode
  { path := normalizeRoutePath rd.routePath
    method := method
    file := file.relPath
    line := handlerNode.lineOf
    isDynamic := rd.dynamicSegments.length > 0
    dynamicSegments := rd.dynamicSegments.map (·.name)
    hasMiddleware := file.middlewareExported
    isServerAction := file.serverActionDirective
    handlerLines := analysis.handlerLines
    usesDb := analysis.usesDb
    hasErrorHandling := analysis.hasErrorHandling
    hasValidation := analysis.hasValidation
    headers := analysis.headers
    queryParams := analysis.queryParams
    bodyExample := analysis.bodyExample }

/-- `parseAppRouterFile` (next-app-parser.ts), with the module cache threaded
through. -/
def parseAppRouterFileM (rootDir : String) (file : AppFileModel) (fuel : Nat)
    (cache : RouteCache) : List NextAppRouteHandler × RouteCache :=
  let res := extractRoutePathCached rootDir file.relPath cache
  ((appMethodSet file fuel).map (buildAppHandler file res.1), res.2)

/-- `convertToRoutes` (next-app-parser.ts), one handler. -/
def convertAppRoute (rootDir : String) (h : NextAppRouteHandler) : ParsedRoute :=
  let effectiveBody :=
    if h.bodyExample.isSome ∧ shouldIncludeBody h.method then h.bodyExample else none
  { name := h.method ++ " " ++ h.path
    path := h.path
    method := h.method
    filePath := joinPath rootDir h.file
    type := "nextjs-app"
    headers := if h.headers.length > 0 then some h.headers else none
    query := h.queryParams
    body := effectiveBody }

def convertAppRoutes (rootDir : String) (handlers : List NextAppRouteHandler) :
    List ParsedRoute :=
  handlers.map (convertAppRoute rootDir)

/-- `parseNextAppRoutes` (function style): the per-file loop with the
module-level `routePathCache` threaded through, then conversion. -/
def parseNextAppRoutesFn (rootDir : String) (files : List AppFileModel) (fuel : Nat)
    (cache : RouteCache) : (List ParsedRoute × List NextAppRouteHandler) × RouteCache :=
  let scanned := files.foldl (fun (acc : List NextAppRouteHandler × RouteCache) file =>
    if file.isTrpcContent then acc
    else if isAppRouterFile (rootDir ++ "/" ++ file.relPath) then
      let step := parseAppRouterFileM rootDir file fuel acc.2
      (acc.1 ++ step.1, step.2)
    else acc) (([], cache) : List NextAppRouteHandler × RouteCache)
  ((convertAppRoutes rootDir scanned.1, scanned.1), scanned.2)

/-! ## Next.js Pages Router route emission (for C6) -/

structure NextPagesRouteHandler where
  path : String
  method : String
  file : String
  line : Nat
  isDynamic : Bool
  dynamicSegments : List String
  hasMiddleware : Bool
  handlerLines : Nat
  usesDb : Bool
  hasErrorHandling : Bool
  hasValidation : Bool
  headers : List (String × String)
  queryParams : Option (List (String × String))
  bodyExample : Option Json

/-- `NextPagesParser.convertToRoutes`, one handler. -/
def convertPagesRoute (rootDir : String) (h : NextPagesRouteHandler) : ParsedRoute :=
  let effectiveBody :=
    if h.bodyExample.isSome ∧ shouldIncludeBody h.method then h.bodyExample else none
  { name := h.method ++ " " ++ h.path
    path := h.path
    method := h.method
    filePath := joinPath rootDir h.file
    type := "nextjs-page"
    headers := if h.headers.length > 0 then some h.headers else none
    query := h.queryParams
    body := effectiveBody }

/-! ## `BaseParser.parse` and the function-style parse entry points

The log is a list of `(level, message)` entries; the loggers themselves are
pure.  Filesystem facts (does the root directory string name an existing
directory, does `tsconfig.json` exist under it) are inputs.  The body of
`parseRoutes` — everything after project initialization — is abstracted as an
`Except`-valued input together with the log entries it emitted before
returning or throwing. -/

inductive LogLevel where
  | debug
  | info
  | warn
  | error
deriving DecidableEq

abbrev LogEntry := LogLevel × String

def warnCount (log : List LogEntry) : Nat :=
  (log.filter (fun e => e.1 = LogLevel.warn)).length

structure BaseParserCfg where
  name : String
  requiresTsConfig : Bool

/-- The `TrpcParser` constructor configuration. -/
def trpcParserCfg : BaseParserCfg :=
  { name := "tRPC", requiresTsConfig := true }

/-- The `NextPagesParser` constructor configuration. -/
def nextPagesParserCfg : BaseParserCfg :=
  { name := "Next.js Pages Router", requiresTsConfig := true }

structure ParseEnv where
  /-- JS truthiness of `rootDir` (only the empty string is falsy). -/
  rootDirNonEmpty : Bool
  /-- Whether `<rootDir>/tsconfig.json` exists (false whenever the root
  directory itself does not exist). -/
  tsconfigExists : Bool

/-- The `try` body of `BaseParser.parse`: the first component is the routes
or the thrown error, the second the log written so far. -/
def baseParseTry (cfg : BaseParserCfg) (env : ParseEnv)
    (inner : Except String (List ParsedRoute) × List LogEntry) :
    Except String (List ParsedRoute) × List LogEntry :=
  let log0 : List LogEntry :=
    [(LogLevel.debug, "Parsing " ++ cfg.name ++ " routes with AST")]
  if env.rootDirNonEmpty = false then
    (Except.ok [], log0 ++ [(LogLevel.warn, "No root directory provided")])
  else if cfg.requiresTsConfig ∧ env.tsconfigExists = false then
    (Except.ok [],
      log0 ++ [(LogLevel.warn, "No tsconfig.json found, cannot parse routes without AST")])
  else
    let log1 := log0 ++
      [(LogLevel.debug,
        if env.tsconfigExists then "Using tsconfig at tsconfig.json"
        else "No tsconfig.json found, using default compiler options")]
    match inner.1 with
    | Except.ok routes =>
      (Except.ok routes,
        log1 ++ inner.2 ++
          [(LogLevel.info,
            "Parsed " ++ toString routes.length ++ " " ++ cfg.name ++ " routes using AST")])
    | Except.error e => (Except.error e, log1 ++ inner.2)

/-- `BaseParser.parse`: the `try` body wrapped in the catch-all that logs at
error level and returns an empty route list. -/
def baseParse (cfg : BaseParserCfg) (env : ParseEnv)
    (inner : Except String (List ParsedRoute) × List LogEntry) :
    Except String (List ParsedRoute) × List LogEntry :=
  match baseParseTry cfg env inner with
  | (Except.ok routes, log) => (Except.ok routes, log)
  | (Except.error _, log) =>
    (Except.ok [],
      log ++ [(LogLevel.error, "Failed to parse " ++ cfg.name ++ " routes with AST")])

structure FnParseEnv where
  /-- Whether `options.tsconfigPath` was supplied. -/
  tsconfigPathGiven : Bool
  /-- Whether `<rootDir>/tsconfig.json` exists. -/
  tsconfigExists : Bool
  verbose : Bool

/-- The `createDebugLogger` sink of the function-style parsers: a plain
`console.log` line, emitted only when verbose — never a leveled warn. -/
def fnDebugLog (env : FnParseEnv) (msg : String) : List LogEntry :=
  if env.verbose then [(LogLevel.debug, msg)] else []

/-- The function-style `parseTRPCRouters` (src/unnamed/part_005) up to its
early no-tsconfig return; the remainder of the pipeline is abstracted as the
`rest` input (routes and log produced when a tsconfig was found). -/
def parseTRPCRoutersFn (env : FnParseEnv)
    (rest : List ParsedRoute × List LogEntry) : List ParsedRoute × List LogEntry :=
  let log0 := fnDebugLog env "Parsing tRPC routers with AST"
  if env.tsconfigPathGiven = false ∧ env.tsconfigExists = false then
    ([], log0 ++ fnDebugLog env "No tsconfig.json found, cannot parse routes without AST")
  else
    (rest.1, log0 ++ rest.2)

/-! ## Claim-side projections and concrete inputs -/

/-- Entry of the projection as claim C4 literally states it: every key whose
value is a primitive (and in JS, `null` is a primitive) becomes an entry whose
value is that value converted to a string — `String(null)` is `"null"` — and
keys with object values are dropped. -/
def claimC4Entry (kv : String × Json) : Option (String × String) :=
  match kv.2 with
  | .null => some (kv.1, "null")
  | .bool b => some (kv.1, if b then "true" else "false")
  | .num n => some (kv.1, toString n)
  | .str s => some (kv.1, s)
  | _ => none

def claimC4Projection (fields : List (String × Json)) : List (String × String) :=
  fields.filterMap claimC4Entry

/-- Entry of the projection the code actually performs (the amended C4):
like the claim, except that a `null` value yields the empty string. -/
def specQueryEntry (kv : String × Json) : Option (String × String) :=
  match kv.2 with
  | .null => some (kv.1, "")
  | .bool b => some (kv.1, if b then "true" else "false")
  | .num n => some (kv.1, toString n)
  | .str s => some (kv.1, s)
  | _ => none

def specQueryProjection (fields : List (String × Json)) : List (String × String) :=
  fields.filterMap specQueryEntry

def sampleTrpcHeaders : List (String × String) :=
  [("Content-Type", "application/json")]

/-- A query procedure whose inferred body example is `{"a":null}` (for the C4
counterexample): e.g. `z.object({ a: z.literal(null) })`. -/
def nodeWithNullField : TrpcProcedureNode :=
  { router := "", procedure := "find", method := .query, input := true, output := false
    file := "server/r.ts", line := 3, bodyExample := some (.obj [("a", .null)])
    queryParams := none, headers := sampleTrpcHeaders }

/-- A root router with no incoming mount edges (for the C3 counterexample):
`const appRouter = router({ search: publicProcedure.query(...) })`. -/
def orphanRootRouter : TrpcRouterMeta :=
  { name := "app", file := "server/r.ts", line := 1, linesOfCode := 3 }

/-- The `search` procedure declared directly on that root router. -/
def orphanRootNode : TrpcProcedureNode :=
  { router := "app", procedure := "search", method := .query, input := false, output := false
    file := "server/r.ts", line := 2, bodyExample := none, queryParams := none
    headers := sampleTrpcHeaders }

def defaultAnalysis : HandlerAnalysis :=
  { handlerLines := 0, usesDb := false, hasErrorHandling := false, hasValidation := false
    headers := [], queryParams := none, bodyExample := none }

/-- An App Router file exporting a `GET` function handler and an exported
`methods` array `["GET", "POST"]` (for the C10 witness). -/
def sampleAppFile : AppFileModel :=
  { relPath := "app/api/health/route.ts", isTrpcContent := false
    functions := [{ name := "GET", exported := true, id := 1, line := 3 }]
    varDecls := [{ name := "methods", exported := true
                   init := some (.arrLit [.strLit "GET", .strLit "POST"]), id := 2, line := 10 }]
    exportedDecls := []
    middlewareExported := false, serverActionDirective := false
    analyzeOf := fun _ => defaultAnalysis }

/-- A query procedure (C6 witness input). -/
def listQueryNode : TrpcProcedureNode :=
  { router := "user", procedure := "list", method := .query, input := false, output := false
    file := "server/u.ts", line := 5, bodyExample := some (.obj [("q", .str "string")])
    queryParams := none, headers := sampleTrpcHeaders }

/-- A GET App Router handler record with a body example (C6 witness input). -/
def getAppHandler : NextAppRouteHandler :=
  { path := "/api/health", method := "GET", file := "app/api/health/route.ts", line := 3
    isDynamic := false, dynamicSegments := [], hasMiddleware := false, isServerAction := false
    handlerLines := 2, usesDb := false, hasErrorHandling := false, hasValidation := false
    headers := [], queryParams := none, bodyExample := some (.obj [("x", .num 0)]) }

/-- A HEAD Pages Router handler record with a body example (C6 witness input). -/
def headPagesHandler : NextPagesRouteHandler :=
  { path := "/api/items", method := "HEAD", file := "pages/api/items.ts", line := 1
    isDynamic := false, dynamicSegments := [], hasMiddleware := false
    handlerLines := 2, usesDb := false, hasErrorHandling := false, hasValidation := false
    headers := [], queryParams := none, bodyExample := some (.obj [("x", .num 0)]) }

/-! ## Utility lemmas -/

theorem mapGet_mapSet_same {α : Type} (m : List (String × α)) (k : String) (v : α) :
    mapGet (mapSet m k v) k = some v := by
  induction m with
  | nil => simp [mapSet, mapGet]
  | cons hd tl ih =>
    by_cases h : hd.1 = k
    · rcases hd with ⟨k2, v2⟩
      simp only at h
      simp [mapSet, mapGet, h]
    · rcases hd with ⟨k2, v2⟩
      simp only at h
      simp [mapSet, mapGet, h, ih]

theorem mapGet_mapSet_other {α : Type} (m : List (String × α)) (k k2 : String) (v : α)
    (h : k ≠ k2) : mapGet (mapSet m k v) k2 = mapGet m k2 := by
  induction m with
  | nil => simp [mapSet, mapGet, h]
  | cons hd tl ih =>
    by_cases h2 : hd.1 = k
    · rcases hd with ⟨k3, v3⟩
      simp only at h2
      subst h2
      simp [mapSet, mapGet, h]
    · rcases hd with ⟨k3, v3⟩
      simp only at h2
      simp [mapSet, mapGet, h2, ih]

theorem mem_insertUnique (acc : List String) (x m : String) :
    m ∈ insertUnique acc x ↔ m ∈ acc ∨ m = x := by
  by_cases h : x ∈ acc
  · simp only [insertUnique, if_pos h]
    constructor
    · exact fun hm => Or.inl hm
    · rintro (hm | rfl)
      · exact hm
      · exact h
  · simp [insertUnique, if_neg h]

theorem mem_foldl_insertUnique (l : List String) :
    ∀ (acc : List String) (m : String),
      m ∈ l.foldl insertUnique acc ↔ m ∈ acc ∨ m ∈ l := by
  induction l with
  | nil => simp
  | cons x xs ih =>
    intro acc m
    simp only [List.foldl_cons, ih, mem_insertUnique, List.mem_cons]
    tauto

/-- Folds that insert detected strings into an insertion-ordered set: if one
step adds exactly the elements described by `adds`, the whole fold adds
exactly the elements contributed by some list entry. -/
theorem mem_foldl_step {α : Type} (step : List String → α → List String)
    (adds : α → String → Prop)
    (hstep : ∀ acc a m, m ∈ step acc a ↔ m ∈ acc ∨ adds a m) :
    ∀ (l : List α) (acc : List String) (m : String),
      m ∈ l.foldl step acc ↔ m ∈ acc ∨ ∃ a ∈ l, adds a m := by
  intro l
  induction l with
  | nil => simp
  | cons x xs ih =>
    intro acc m
    simp only [List.foldl_cons, ih, hstep, List.mem_cons]
    constructor
    · rintro ((hm | hx) | ⟨a, ha, hadds⟩)
      · exact Or.inl hm
      · exact Or.inr ⟨x, Or.inl rfl, hx⟩
      · exact Or.inr ⟨a, Or.inr ha, hadds⟩
    · rintro (hm | ⟨a, (rfl | ha), hadds⟩)
      · exact Or.inl (Or.inl hm)
      · exact Or.inl (Or.inr hadds)
      · exact Or.inr ⟨a, ha, hadds⟩

theorem filterMap_ext_fun {α β : Type} (f g : α → Option β) (h : ∀ x, f x = g x)
    (l : List α) : l.filterMap f = l.filterMap g := by
  have hfg : f = g := funext h
  rw [hfg]

/-! ## C1: tRPC route shape -/

theorem convertBody_obj (fields : List (String × Json)) :
    convertBodyToQueryParams (Json.obj fields) =
      if (specQueryProjection fields).length > 0 then some (specQueryProjection fields)
      else none := by
  have h : fields.filterMap queryParamEntry = specQueryProjection fields := by
    unfold specQueryProjection
    refine filterMap_ext_fun _ _ ?_ fields
    intro kv
    rcases kv with ⟨k, v⟩
    cases v <;> rfl
  simp only [convertBodyToQueryParams, h]

/-- C1: for every tRPC procedure record, the emitted Route has path
`/api/trpc/<router>.<procedure>` when `router` is non-empty and
`/api/trpc/<procedure>` otherwise, method `GET` exactly for queries and
`POST` exactly for mutations, and name `"<method> <path>"`. -/
theorem trpc_route_shape (rootDir : String) (node : TrpcProcedureNode) :
    ((convertTrpcNode rootDir node).path =
      if node.router ≠ "" then "/api/trpc/" ++ node.router ++ "." ++ node.procedure
      else "/api/trpc/" ++ node.procedure) ∧
    ((convertTrpcNode rootDir node).method = "GET" ↔ node.method = ProcedureMethod.query) ∧
    ((convertTrpcNode rootDir node).method = "POST" ↔ node.method = ProcedureMethod.mutation) ∧
    (convertTrpcNode rootDir node).name =
      (convertTrpcNode rootDir node).method ++ " " ++ (convertTrpcNode rootDir node).path := by
  cases hm : node.method <;> simp [convertTrpcNode, hm]

/-! ## C4: GET body-example projection (corrected: `null` maps to `""`) -/

/-- C4 counterexample: on the body example `{"a":null}` the code emits the
query entry `("a", "")`, while the claim's wording (`null` is a JS primitive
and `String(null) = "null"`) would demand `("a", "null")`. -/
theorem trpc_query_projection_counterexample :
    (convertTrpcNode "" nodeWithNullField).query = some [("a", "")] ∧
    claimC4Projection [("a", Json.null)] = [("a", "null")] ∧
    (convertTrpcNode "" nodeWithNullField).query ≠
      some (claimC4Projection [("a", Json.null)]) := by
  refine ⟨rfl, rfl, ?_⟩
  intro h
  simp only [convertTrpcNode, nodeWithNullField] at h
  exact absurd h (by decide)

/-- C4 (amended): for a query procedure with an object body example the query
field is the projection with primitives `String(...)`-converted except that
`null` becomes `""`, object/array values dropped, and the field omitted when
no key survives; for a mutation the body example is emitted verbatim as the
body. -/
theorem trpc_query_projection (rootDir : String) (node : TrpcProcedureNode)
    (fields : List (String × Json))
    (hq : node.method = ProcedureMethod.query)
    (hb : node.bodyExample = some (Json.obj fields)) :
    ((convertTrpcNode rootDir node).query =
      if (specQueryProjection fields).length > 0 then some (specQueryProjection fields)
      else none) ∧
    (∀ node2 : TrpcProcedureNode, node2.method = ProcedureMethod.mutation →
      (convertTrpcNode rootDir node2).body = node2.bodyExample) := by
  constructor
  · simp [convertTrpcNode, hq, hb, convertBody_obj]
  · intro node2 hm2
    simp [convertTrpcNode, hm2]

theorem trpc_query_projection_witness :
    nodeWithNullField.method = ProcedureMethod.query ∧
    nodeWithNullField.bodyExample = some (Json.obj [("a", Json.null)]) ∧
    ((convertTrpcNode "" nodeWithNullField).query =
      if (specQueryProjection [("a", Json.null)]).length > 0 then
        some (specQueryProjection [("a", Json.null)])
      else none) := by
  refine ⟨rfl, rfl, ?_⟩
  exact (trpc_query_projection "" nodeWithNullField [("a", Json.null)] rfl rfl).1

/-! ## C6: GET and HEAD routes never carry a body -/

/-- C6: for every emitted route of the tRPC, App Router and Pages Router
emitters, a GET or HEAD method implies an absent body. -/
theorem routes_get_head_no_body (rootDir : String) (tn : TrpcProcedureNode)
    (ah : NextAppRouteHandler) (ph : NextPagesRouteHandler)
    (h1 : (convertTrpcNode rootDir tn).method = "GET" ∨
      (convertTrpcNode rootDir tn).method = "HEAD")
    (h2 : ah.method = "GET" ∨ ah.method = "HEAD")
    (h3 : ph.method = "GET" ∨ ph.method = "HEAD") :
    (convertTrpcNode rootDir tn).body = none ∧
    (convertAppRoute rootDir ah).body = none ∧
    (convertPagesRoute rootDir ph).body = none := by
  refine ⟨?_, ?_, ?_⟩
  · cases hm : tn.method
    · simp [convertTrpcNode, hm]
    · exfalso
      rcases h1 with h1 | h1 <;> simp [convertTrpcNode, hm] at h1
  · rcases h2 with h2 | h2 <;> simp [convertAppRoute, h2, shouldIncludeBody]
  · rcases h3 with h3 | h3 <;> simp [convertPagesRoute, h3, shouldIncludeBody]

theorem routes_get_head_no_body_witness :
    ((convertTrpcNode "w" listQueryNode).method = "GET" ∨
      (convertTrpcNode "w" listQueryNode).method = "HEAD") ∧
    (getAppHandler.method = "GET" ∨ getAppHandler.method = "HEAD") ∧
    (headPagesHandler.method = "GET" ∨ headPagesHandler.method = "HEAD") ∧
    (convertTrpcNode "w" listQueryNode).body = none ∧
    (convertAppRoute "w" getAppHandler).body = none ∧
    (convertPagesRoute "w" headPagesHandler).body = none := by
  have h := routes_get_head_no_body "w" listQueryNode getAppHandler headPagesHandler
    (Or.inl rfl) (Or.inl rfl) (Or.inr rfl)
  exact ⟨Or.inl rfl, Or.inl rfl, Or.inr rfl, h.1, h.2.1, h.2.2⟩

/-! ## C5: Pages Router method detection -/

theorem extract_none_of_isReq (reqNames : List String) (t : Ts)
    (h : isReqMethodExpr reqNames t = true) : extractMethodLiteral t = none := by
  cases t <;> simp [extractMethodLiteral] <;> simp [isReqMethodExpr] at h

theorem isReq_false_of_extract (reqNames : List String) (t : Ts) (m : String)
    (h : extractMethodLiteral t = some m) : isReqMethodExpr reqNames t = false := by
  cases t
  case propAccess obj n => simp [extractMethodLiteral] at h
  all_goals rfl

theorem stepMethods_mem (reqNames : List String) (acc : List String) (d : Ts) (m : String) :
    m ∈ stepMethods reqNames acc d ↔
      m ∈ acc ∨ eqComparisonDetects reqNames d m ∨ switchCaseDetects reqNames d m := by
  cases d
  case binaryEq l r =>
    simp only [stepMethods, eqComparisonDetects, switchCaseDetects]
    cases hl : isReqMethodExpr reqNames l with
    | true =>
      have hle := extract_none_of_isReq reqNames l hl
      cases hr : extractMethodLiteral r with
      | some m2 =>
        have hrq := isReq_false_of_extract reqNames r m2 hr
        simp [mem_insertUnique, hl, hr, hle, hrq, eq_comm]
      | none =>
        cases hrq : isReqMethodExpr reqNames r <;> simp [hl, hr, hle, hrq]
    | false =>
      cases hrq : isReqMethodExpr reqNames r with
      | true =>
        cases hle : extractMethodLiteral l with
        | some m2 => simp [mem_insertUnique, hl, hrq, hle, eq_comm]
        | none => simp [hl, hrq, hle]
      | false =>
        cases hle : extractMethodLiteral l <;> simp [hl, hrq, hle]
  case switchOn scrut clauses =>
    cases hs : isReqMethodExpr reqNames scrut with
    | false => simp [stepMethods, eqComparisonDetects, switchCaseDetects, hs]
    | true =>
      have hstep : ∀ (acc2 : List String) (cl : Option Ts × List Ts) (m2 : String),
          m2 ∈ (match cl.1 with
            | some e =>
              match extractMethodLiteral e with
              | some m3 => insertUnique acc2 m3
              | none => acc2
            | none => acc2) ↔
          m2 ∈ acc2 ∨ (∃ e, cl.1 = some e ∧ extractMethodLiteral e = some m2) := by
        intro acc2 cl m2
        rcases cl with ⟨lbl, body⟩
        cases lbl with
        | some e =>
          cases he : extractMethodLiteral e with
          | some m3 => simp [he, mem_insertUnique, eq_comm]
          | none => simp [he]
        | none => simp
      have hunf : stepMethods reqNames acc (Ts.switchOn scrut clauses) =
          clauses.foldl (fun acc2 cl =>
            match cl.1 with
            | some e =>
              match extractMethodLiteral e with
              | some m3 => insertUnique acc2 m3
              | none => acc2
            | none => acc2) acc := by
        simp [stepMethods, hs]
      rw [hunf, mem_foldl_step _
        (fun cl m2 => ∃ e, cl.1 = some e ∧ extractMethodLiteral e = some m2)
        (fun acc2 cl m2 => hstep acc2 cl m2) clauses acc m]
      simp only [eqComparisonDetects, switchCaseDetects, hs, true_and]
      tauto
  all_goals simp [stepMethods, eqComparisonDetects, switchCaseDetects]

theorem detectExportedMethods_mem (file : PagesFileModel) (fuel : Nat) (m : String) :
    m ∈ detectExportedMethods file fuel ↔
      ∃ d ∈ file.varDecls, d.name = "methods" ∧ d.exported = true ∧
        m ∈ extractMethodsFromExpression file fuel d.init := by
  unfold detectExportedMethods
  rw [mem_foldl_step
    (fun ms (d : VarDeclModel) =>
      if d.name = "methods" ∧ d.exported then
        (extractMethodsFromExpression file fuel d.init).foldl insertUnique ms
      else ms)
    (fun d m2 => d.name = "methods" ∧ d.exported = true ∧
      m2 ∈ extractMethodsFromExpression file fuel d.init)
    (by
      intro ms d m2
      dsimp only
      by_cases hc : d.name = "methods" ∧ d.exported = true
      · rw [if_pos hc, mem_foldl_insertUnique]
        constructor
        · rintro (hm | hm)
          · exact Or.inl hm
          · exact Or.inr ⟨hc.1, hc.2, hm⟩
        · rintro (hm | ⟨_, _, hm⟩)
          · exact Or.inl hm
          · exact Or.inr hm
      · rw [if_neg hc]
        constructor
        · exact fun hm => Or.inl hm
        · rintro (hm | ⟨h1, h2, _⟩)
          · exact hm
          · exact absurd ⟨h1, h2⟩ hc)
    file.varDecls [] m]
  simp

theorem extractMethods_arr_mem (file : PagesFileModel) (fuel : Nat)
    (elems : List Ts) (m : String) :
    m ∈ extractMethodsFromExpression file fuel (some (Ts.arrLit elems)) ↔
      ∃ e ∈ elems, extractMethodLiteral e = some m := by
  have harr : extractMethodsFromExpression file fuel (some (Ts.arrLit elems)) =
      elems.foldl (fun ms e =>
        match extractMethodLiteral e with
        | some m2 => if m2 ∈ ms then ms else ms ++ [m2]
        | none => ms) [] := by
    cases fuel <;> rfl
  rw [harr]
  have hfold := mem_foldl_step
    (fun ms (e : Ts) =>
      match extractMethodLiteral e with
      | some m2 => if m2 ∈ ms then ms else ms ++ [m2]
      | none => ms)
    (fun e m2 => extractMethodLiteral e = some m2)
    (by
      intro ms e m2
      cases he : extractMethodLiteral e with
      | some m3 =>
        have : (if m3 ∈ ms then ms else ms ++ [m3]) = insertUnique ms m3 := rfl
        simp only [he, this, mem_insertUnique, Option.some.injEq]
        tauto
      | none => simp [he])
    elems [] m
  rw [hfold]
  simp

/-- C5: the set of methods the Pages Router parser infers for a handler is
exactly the union of the recognized literals compared against `<req>.method`
with `===`/`==`, the recognized case labels of `switch (<req>.method)`
statements, and the recognized literals of an exported `methods` array; the
last component is characterized for direct array-literal initializers. -/
theorem pages_method_detection (file : PagesFileModel) (params : List String)
    (handler : Ts) (fuel : Nat) (m : String) :
    (m ∈ detectPagesRouterMethods file params handler fuel ↔
      (∃ d ∈ file.varDecls, d.name = "methods" ∧ d.exported = true ∧
        m ∈ extractMethodsFromExpression file fuel d.init) ∨
      (∃ d ∈ Ts.descendants handler,
        eqComparisonDetects (collectReqParamNames params) d m) ∨
      (∃ d ∈ Ts.descendants handler,
        switchCaseDetects (collectReqParamNames params) d m)) ∧
    (∀ elems : List Ts,
      m ∈ extractMethodsFromExpression file fuel (some (Ts.arrLit elems)) ↔
        ∃ e ∈ elems, extractMethodLiteral e = some m) := by
  constructor
  · unfold detectPagesRouterMethods
    rw [mem_foldl_step (stepMethods (collectReqParamNames params))
      (fun d m2 => eqComparisonDetects (collectReqParamNames params) d m2 ∨
        switchCaseDetects (collectReqParamNames params) d m2)
      (fun acc d m2 => stepMethods_mem (collectReqParamNames params) acc d m2)
      (Ts.descendants handler) _ m]
    rw [mem_foldl_insertUnique]
    rw [detectExportedMethods_mem]
    constructor
    · rintro ((hf | he) | ⟨d, hd, hdet | hdet⟩)
      · exact absurd hf (by simp)
      · exact Or.inl he
      · exact Or.inr (Or.inl ⟨d, hd, hdet⟩)
      · exact Or.inr (Or.inr ⟨d, hd, hdet⟩)
    · rintro (he | ⟨d, hd, hdet⟩ | ⟨d, hd, hdet⟩)
      · exact Or.inl (Or.inr he)
      · exact Or.inr ⟨d, hd, Or.inl hdet⟩
      · exact Or.inr ⟨d, hd, Or.inr hdet⟩
  · intro elems
    exact extractMethods_arr_mem file fuel elems m

/-! ## C10: one App-Router record per method -/

theorem nodup_foldl_insertUnique (l : List String) :
    ∀ acc : List String, acc.Nodup → (l.foldl insertUnique acc).Nodup := by
  induction l with
  | nil => exact fun acc h => h
  | cons x xs ih =>
    intro acc hacc
    refine ih (insertUnique acc x) ?_
    by_cases hx : x ∈ acc
    · simpa [insertUnique, hx] using hacc
    · simp only [insertUnique, if_neg hx]
      refine hacc.append (List.nodup_singleton x) ?_
      intro a ha hax
      rw [List.mem_singleton] at hax
      exact hx (hax ▸ ha)

theorem length_filter_eq_le_one (l : List String) (hl : l.Nodup) (m : String) :
    (l.filter (fun x => x = m)).length ≤ 1 := by
  induction l with
  | nil => simp
  | cons x xs ih =>
    rcases List.nodup_cons.mp hl with ⟨hx, hxs⟩
    by_cases hxm : x = m
    · subst hxm
      have hnil : xs.filter (fun y => y = x) = [] := by
        refine List.filter_eq_nil_iff.mpr ?_
        intro y hy
        simp only [decide_eq_true_eq]
        intro heq
        exact hx (heq ▸ hy)
      simp [List.filter_cons, hnil]
    · simpa [List.filter_cons, hxm] using ih hxs

theorem mapGet_none_iff_not_mem_keys {α : Type} (m : List (String × α)) (k : String) :
    mapGet m k = none ↔ k ∉ m.map (·.1) := by
  induction m with
  | nil => simp [mapGet]
  | cons hd tl ih =>
    rcases hd with ⟨k2, v2⟩
    by_cases h : k2 = k
    · subst h
      simp [mapGet]
    · simp [mapGet, h, ih, Ne.symm h]

/-- C10: the App-Router parser emits at most one record per HTTP method; every
record's line comes from the node `methodHandlers.get(method) ?? sourceFile`;
that node is the collected exported handler declaration when one exists, and
the source file itself exactly for methods that appear only in the exported
`methods` array. -/
theorem app_one_record_per_method (rootDir : String) (file : AppFileModel)
    (fuel : Nat) (cache : RouteCache) :
    (∀ m : String,
      (((parseAppRouterFileM rootDir file fuel cache).1.filter
        (fun h => h.method = m)).length ≤ 1)) ∧
    (∀ h ∈ (parseAppRouterFileM rootDir file fuel cache).1,
      h.line = (chosenHandlerNode file h.method).lineOf ∧
      (∀ n, mapGet (collectHttpMethodHandlers file) h.method = some n →
        chosenHandlerNode file h.method = n) ∧
      (mapGet (collectHttpMethodHandlers file) h.method = none →
        chosenHandlerNode file h.method = HandlerNodeRef.srcFile ∧
        h.method ∈ detectExportedMethodsApp file fuel)) := by
  have hnodup : (appMethodSet file fuel).Nodup :=
    nodup_foldl_insertUnique _ _
      (nodup_foldl_insertUnique _ [] List.nodup_nil)
  have hres : (parseAppRouterFileM rootDir file fuel cache).1 =
      (appMethodSet file fuel).map
        (buildAppHandler file (extractRoutePathCached rootDir file.relPath cache).1) := rfl
  constructor
  · intro m
    rw [hres, List.filter_map, List.length_map]
    have hcongr : (appMethodSet file fuel).filter
        ((fun h : NextAppRouteHandler => decide (h.method = m)) ∘
          buildAppHandler file (extractRoutePathCached rootDir file.relPath cache).1) =
        (appMethodSet file fuel).filter (fun x => x = m) := by
      refine List.filter_congr ?_
      intro x _
      rfl
    rw [hcongr]
    exact length_filter_eq_le_one _ hnodup m
  · intro h hmem
    rw [hres, List.mem_map] at hmem
    rcases hmem with ⟨m2, hm2, rfl⟩
    refine ⟨rfl, ?_, ?_⟩
    · intro n hn
      simp [chosenHandlerNode, hn]
    · intro hn
      refine ⟨by simp [chosenHandlerNode, hn], ?_⟩
      have hkeys := (mapGet_none_iff_not_mem_keys (collectHttpMethodHandlers file) m2).mp hn
      rcases (mem_foldl_insertUnique _ _ _).mp hm2 with hin | hexp
      · rcases (mem_foldl_insertUnique _ _ _).mp hin with habs | hkey
        · exact absurd habs (by simp)
        · exact absurd hkey hkeys
      · exact hexp

theorem app_one_record_per_method_witness :
    (((parseAppRouterFileM "w" sampleAppFile 1 []).1.filter
      (fun h => h.method = "GET")).length ≤ 1) ∧
    chosenHandlerNode sampleAppFile "GET" = HandlerNodeRef.funcDecl 1 3 ∧
    (chosenHandlerNode sampleAppFile "POST" = HandlerNodeRef.srcFile ∧
      "POST" ∈ detectExportedMethodsApp sampleAppFile 1) := by
  have h := app_one_record_per_method "w" sampleAppFile 1 []
  have hset : appMethodSet sampleAppFile 1 = ["GET", "POST"] := rfl
  have hmemGet : buildAppHandler sampleAppFile
      (extractRoutePathCached "w" sampleAppFile.relPath []).1 "GET" ∈
      (parseAppRouterFileM "w" sampleAppFile 1 []).1 :=
    List.mem_map.mpr ⟨"GET", by rw [hset]; simp, rfl⟩
  have hmemPost : buildAppHandler sampleAppFile
      (extractRoutePathCached "w" sampleAppFile.relPath []).1 "POST" ∈
      (parseAppRouterFileM "w" sampleAppFile 1 []).1 :=
    List.mem_map.mpr ⟨"POST", by rw [hset]; simp, rfl⟩
  refine ⟨h.1 "GET", ?_, ?_⟩
  · exact (h.2 _ hmemGet).2.1 (HandlerNodeRef.funcDecl 1 3) rfl
  · exact (h.2 _ hmemPost).2.2 rfl

/-! ## C3: orphan-root routers (corrected)

The resolution map sends an orphan root to `""`, but the write-back loop in
`parseRoutes` skips empty mapped paths, so procedures of a root router keep
the router's display name as a dotted prefix. -/

theorem mem_computeRoots (incoming : List (String × List RouterMountEdge))
    (routers : List TrpcRouterMeta) (r : TrpcRouterMeta) (hr : r ∈ routers)
    (hno : mapGet incoming r.name = none)
    (hno2 : mapGet incoming (strOr (normalizeRouterName r.name) r.name) = none) :
    r.name ∈ computeRoots incoming routers := by
  unfold computeRoots
  rw [mem_foldl_step _
    (fun (r2 : TrpcRouterMeta) m =>
      ((mapGet incoming r2.name).isNone ∧
        (mapGet incoming (strOr (normalizeRouterName r2.name) r2.name)).isNone) ∧
      (m = r2.name ∨ m = strOr (normalizeRouterName r2.name) r2.name))
    (by
      intro rs r2 m
      dsimp only
      by_cases hc : (mapGet incoming r2.name).isNone ∧
          (mapGet incoming (strOr (normalizeRouterName r2.name) r2.name)).isNone
      · rw [if_pos hc]
        simp only [mem_insertUnique]
        tauto
      · rw [if_neg hc]
        constructor
        · exact fun hm => Or.inl hm
        · rintro (hm | ⟨hcond, _⟩)
          · exact hm
          · exact absurd hcond hc)
    routers [] r.name]
  exact Or.inr ⟨r, hr, ⟨by simp [hno], by simp [hno2]⟩, Or.inl rfl⟩

theorem resolveGo_keeps_empty (incoming : List (String × List RouterMountEdge))
    (roots : List String) (rname : String)
    (hroots : rname ∈ roots ∨ strOr (normalizeRouterName rname) rname ∈ roots)
    (hedges : incomingEdges incoming rname (strOr (normalizeRouterName rname) rname) = []) :
    ∀ (fuel : Nat) (resolving : List String) (resolved : List (String × String))
      (name : String),
      (∀ v, mapGet resolved rname = some v → v = "") →
      ∀ v, mapGet (resolveGo incoming roots fuel resolving resolved name).1 rname = some v →
        v = "" := by
  intro fuel
  induction fuel with
  | zero => exact fun resolving resolved name hP v hv => hP v hv
  | succ f ih =>
    intro resolving resolved name hP v hv
    simp only [resolveGo] at hv
    cases hmemo : mapGet resolved name with
    | some w =>
      rw [hmemo] at hv
      exact hP v hv
    | none =>
      rw [hmemo] at hv
      by_cases hres : name ∈ resolving
      · rw [if_pos hres] at hv
        exact hP v hv
      · rw [if_neg hres] at hv
        by_cases hname : name = rname
        · subst hname
          cases hhead : (incomingEdges incoming name
              (strOr (normalizeRouterName name) name)).head? with
          | some edge =>
            rw [hedges] at hhead
            exact absurd hhead (by simp)
          | none =>
            rw [hhead] at hv
            have hbase : (if name ∈ roots ∨ strOr (normalizeRouterName name) name ∈ roots
                then "" else name) = "" := if_pos hroots
            rw [hbase] at hv
            rw [mapGet_mapSet_same] at hv
            exact (Option.some.injEq _ _ ▸ hv).symm
        · cases hhead : (incomingEdges incoming name
              (strOr (normalizeRouterName name) name)).head? with
          | none =>
            rw [hhead] at hv
            rw [mapGet_mapSet_other _ _ _ _ hname] at hv
            exact hP v hv
          | some edge =>
            rw [hhead] at hv
            rw [mapGet_mapSet_other _ _ _ _ hname] at hv
            exact ih (name :: resolving) resolved edge.parent hP v hv

theorem resolveGo_mono_entry (incoming : List (String × List RouterMountEdge))
    (roots : List String) :
    ∀ (fuel : Nat) (resolving : List String) (resolved : List (String × String))
      (name k : String),
      mapGet resolved k ≠ none →
      mapGet (resolveGo incoming roots fuel resolving resolved name).1 k ≠ none := by
  intro fuel
  induction fuel with
  | zero => exact fun resolving resolved name k h => h
  | succ f ih =>
    intro resolving resolved name k h
    simp only [resolveGo]
    cases hmemo : mapGet resolved name with
    | some w => exact h
    | none =>
      by_cases hres : name ∈ resolving
      · rw [if_pos hres]
        exact h
      · rw [if_neg hres]
        cases hhead : (incomingEdges incoming name
            (strOr (normalizeRouterName name) name)).head? with
        | none =>
          by_cases hk : name = k
          · subst hk
            rw [mapGet_mapSet_same]
            simp
          · rw [mapGet_mapSet_other _ _ _ _ hk]
            exact h
        | some edge =>
          by_cases hk : name = k
          · subst hk
            rw [mapGet_mapSet_same]
            simp
          · rw [mapGet_mapSet_other _ _ _ _ hk]
            exact ih (name :: resolving) resolved edge.parent k h

theorem resolveGo_sets_root (incoming : List (String × List RouterMountEdge))
    (roots : List String) (rname : String)
    (hedges : incomingEdges incoming rname (strOr (normalizeRouterName rname) rname) = [])
    (fuel : Nat) (resolved : List (String × String)) :
    mapGet (resolveGo incoming roots (fuel + 1) [] resolved rname).1 rname ≠ none := by
  simp only [resolveGo]
  cases hmemo : mapGet resolved rname with
  | some w => simp [hmemo]
  | none =>
    have hres : rname ∉ ([] : List String) := by simp
    rw [if_neg hres]
    rw [hedges]
    simp only [List.head?]
    rw [mapGet_mapSet_same]
    simp

theorem resolveRouterPaths_orphan_root (routers : List TrpcRouterMeta)
    (mounts : List RouterMountEdge) (r : TrpcRouterMeta) (hr : r ∈ routers)
    (hno : mapGet (buildIncoming (buildByNormalized routers) mounts) r.name = none)
    (hno2 : mapGet (buildIncoming (buildByNormalized routers) mounts)
      (strOr (normalizeRouterName r.name) r.name) = none) :
    mapGet (resolveRouterPaths routers mounts) r.name = some "" := by
  have hroots : r.name ∈ computeRoots (buildIncoming (buildByNormalized routers) mounts)
      routers :=
    mem_computeRoots _ _ r hr hno hno2
  have hedges : incomingEdges (buildIncoming (buildByNormalized routers) mounts) r.name
      (strOr (normalizeRouterName r.name) r.name) = [] := by
    simp [incomingEdges, hno, hno2]
  set incoming := buildIncoming (buildByNormalized routers) mounts with hinc
  set roots := computeRoots incoming routers with hrts
  have hkeep := resolveGo_keeps_empty incoming roots r.name (Or.inl hroots) hedges
  have hmono := resolveGo_mono_entry incoming roots
  have hfold : ∀ (rs : List TrpcRouterMeta) (resolved : List (String × String)),
      (∀ v, mapGet resolved r.name = some v → v = "") →
      ((∀ v, mapGet (rs.foldl (fun resolved2 r2 =>
          (resolveGo incoming roots (resolveFuel routers mounts) [] resolved2 r2.name).1)
          resolved) r.name = some v → v = "") ∧
        ((mapGet resolved r.name ≠ none ∨ r ∈ rs) →
          mapGet (rs.foldl (fun resolved2 r2 =>
            (resolveGo incoming roots (resolveFuel routers mounts) [] resolved2 r2.name).1)
            resolved) r.name ≠ none)) := by
    intro rs
    induction rs with
    | nil =>
      intro resolved hP
      refine ⟨hP, ?_⟩
      rintro (h | h)
      · exact h
      · exact absurd h (by simp)
    | cons r2 rs2 ih =>
      intro resolved hP
      have hP2 := hkeep (resolveFuel routers mounts) [] resolved r2.name hP
      rcases ih _ hP2 with ⟨ihP, ihE⟩
      refine ⟨ihP, ?_⟩
      rintro (h | h)
      · exact ihE (Or.inl (hmono (resolveFuel routers mounts) [] resolved r2.name r.name h))
      · rcases List.mem_cons.mp h with heq | hmem
        · subst heq
          refine ihE (Or.inl ?_)
          show mapGet (resolveGo incoming roots
            ((routerUniverse routers mounts).length + 1) [] resolved r.name).1 r.name ≠ none
          exact resolveGo_sets_root incoming roots r.name hedges
            (routerUniverse routers mounts).length resolved
        · exact ihE (Or.inr hmem)
  have hmain := hfold routers [] (by simp [mapGet])
  have hentry := hmain.2 (Or.inr hr)
  have hval := hmain.1
  have hrw : resolveRouterPaths routers mounts =
      routers.foldl (fun resolved2 r2 =>
        (resolveGo incoming roots (resolveFuel routers mounts) [] resolved2 r2.name).1)
        [] := by
    rw [hrts, hinc]
    rfl
  rw [hrw]
  cases hfin : mapGet (routers.foldl (fun resolved2 r2 =>
      (resolveGo incoming roots (resolveFuel routers mounts) [] resolved2 r2.name).1)
      []) r.name with
  | none => exact absurd hfin hentry
  | some v => rw [hval v hfin]

/-- C3 counterexample: a procedure declared directly on the orphan root
router `appRouter` is emitted at `/api/trpc/app.search`, not at
`/api/trpc/search`, although the root itself resolves to `""`. -/
theorem trpc_orphan_root_counterexample :
    (emitTrpcRoutes "" [orphanRootRouter] [] [orphanRootNode]).map (fun rt => rt.path) =
      ["/api/trpc/app.search"] ∧
    mapGet (resolveRouterPaths [orphanRootRouter] []) "app" = some "" ∧
    (emitTrpcRoutes "" [orphanRootRouter] [] [orphanRootNode]).map (fun rt => rt.path) ≠
      ["/api/trpc/search"] := by
  refine ⟨rfl, rfl, ?_⟩
  intro h
  rw [show (emitTrpcRoutes "" [orphanRootRouter] [] [orphanRootNode]).map
    (fun rt => rt.path) = ["/api/trpc/app.search"] from rfl] at h
  exact absurd h (by decide)

/-- C3 (amended): an orphan root resolves to the empty string in the router
path map, but the empty path is not written back into the procedure's
`router` field, so a procedure on a root router with a non-empty display name
is emitted at `/api/trpc/<router>.<procedure>`, keeping the dotted prefix. -/
theorem trpc_orphan_root_prefix (rootDir : String) (routers : List TrpcRouterMeta)
    (mounts : List RouterMountEdge) (r : TrpcRouterMeta) (node : TrpcProcedureNode)
    (hr : r ∈ routers)
    (hno : mapGet (buildIncoming (buildByNormalized routers) mounts) r.name = none)
    (hno2 : mapGet (buildIncoming (buildByNormalized routers) mounts)
      (strOr (normalizeRouterName r.name) r.name) = none)
    (hnode : node.router = r.name) (hne : r.name ≠ "") :
    mapGet (resolveRouterPaths routers mounts) r.name = some "" ∧
    (emitTrpcRoutes rootDir routers mounts [node]).map (fun rt => rt.path) =
      ["/api/trpc/" ++ r.name ++ "." ++ node.procedure] := by
  have hres := resolveRouterPaths_orphan_root routers mounts r hr hno hno2
  refine ⟨hres, ?_⟩
  have happly : applyRouterPathMap (resolveRouterPaths routers mounts) [node] = [node] := by
    unfold applyRouterPathMap
    simp only [List.map_cons, List.map_nil]
    rw [hnode, hres]
    simp
  unfold emitTrpcRoutes convertToRoutes
  rw [happly]
  simp [convertTrpcNode, hnode, hne]

theorem trpc_orphan_root_prefix_witness :
    mapGet (resolveRouterPaths [orphanRootRouter] []) orphanRootRouter.name = some "" ∧
    (emitTrpcRoutes "w" [orphanRootRouter] [] [orphanRootNode]).map (fun rt => rt.path) =
      ["/api/trpc/" ++ orphanRootRouter.name ++ "." ++ orphanRootNode.procedure] :=
  trpc_orphan_root_prefix "w" [orphanRootRouter] [] orphanRootRouter orphanRootNode
    (by simp) rfl rfl rfl (by decide)

/-! ## C2: router-path resolution terminates, breaks cycles, uses first edges

The code's recursion terminates because the in-progress set grows along every
call chain while the names it can contain come from the finite universe of
edge parents and router names; this is captured by showing the fuelled
embedding is stable at `resolveFuel` (adding fuel never changes the
result). -/

theorem length_filter_mono {α : Type} (p q : α → Bool)
    (h : ∀ x, p x = true → q x = true) (l : List α) :
    (l.filter p).length ≤ (l.filter q).length := by
  induction l with
  | nil => simp
  | cons x xs ih =>
    rw [List.filter_cons, List.filter_cons]
    by_cases hp : p x = true
    · rw [if_pos hp, if_pos (h x hp)]
      exact Nat.succ_le_succ ih
    · rw [if_neg hp]
      by_cases hq : q x = true
      · rw [if_pos hq]
        exact Nat.le_succ_of_le ih
      · rw [if_neg hq]
        exact ih

theorem measure_decrease (univ resolving : List String) (name : String)
    (hmem : name ∈ univ) (hnot : name ∉ resolving) :
    (univ.filter (fun x => decide (x ∉ name :: resolving))).length <
      (univ.filter (fun x => decide (x ∉ resolving))).length := by
  induction univ with
  | nil => simp at hmem
  | cons x xs ih =>
    rw [List.filter_cons, List.filter_cons]
    by_cases hx : x = name
    · subst hx
      rw [if_neg (by simp), if_pos (by simpa using hnot)]
      refine Nat.lt_succ_of_le ?_
      refine length_filter_mono _ _ ?_ xs
      intro y hy
      simp only [decide_eq_true_eq, List.mem_cons, not_or] at hy ⊢
      exact hy.2
    · have hiff : (decide (x ∉ name :: resolving)) = (decide (x ∉ resolving)) := by
        simp [hx]
      rw [hiff]
      have hmem2 : name ∈ xs := by
        rcases List.mem_cons.mp hmem with h | h
        · exact absurd h.symm hx
        · exact h
      by_cases hq : (decide (x ∉ resolving)) = true
      · rw [if_pos hq, if_pos hq]
        exact Nat.succ_lt_succ (ih hmem2)
      · rw [if_neg hq, if_neg hq]
        exact ih hmem2

theorem mem_incomingEdges_parent (incoming : List (String × List RouterMountEdge))
    (univ : List String)
    (hinc : ∀ k l, mapGet incoming k = some l → ∀ e ∈ l, e.parent ∈ univ)
    (name norm : String) (edge : RouterMountEdge)
    (hhead : (incomingEdges incoming name norm).head? = some edge) :
    edge.parent ∈ univ := by
  have hmem := List.mem_of_mem_head? hhead
  unfold incomingEdges at hmem
  cases h1 : mapGet incoming name with
  | some l =>
    rw [h1] at hmem
    exact hinc name l h1 edge hmem
  | none =>
    rw [h1] at hmem
    cases h2 : mapGet incoming norm with
    | some l2 =>
      rw [h2] at hmem
      exact hinc norm l2 h2 edge hmem
    | none =>
      rw [h2] at hmem
      simp at hmem

theorem resolveGo_fuel_agree (incoming : List (String × List RouterMountEdge))
    (roots univ : List String)
    (hinc : ∀ k l, mapGet incoming k = some l → ∀ e ∈ l, e.parent ∈ univ) :
    ∀ (n f1 f2 : Nat) (resolving : List String) (resolved : List (String × String))
      (name : String),
      name ∈ univ →
      (univ.filter (fun x => decide (x ∉ resolving))).length = n →
      n < f1 → n < f2 →
      resolveGo incoming roots f1 resolving resolved name =
        resolveGo incoming roots f2 resolving resolved name := by
  intro n
  induction n using Nat.strong_induction_on with
  | _ n ih =>
    intro f1 f2 resolving resolved name hname hm h1 h2
    obtain ⟨a, rfl⟩ : ∃ a, f1 = a + 1 := ⟨f1 - 1, by omega⟩
    obtain ⟨b, rfl⟩ : ∃ b, f2 = b + 1 := ⟨f2 - 1, by omega⟩
    cases hmemo : mapGet resolved name with
    | some v => simp [resolveGo, hmemo]
    | none =>
      by_cases hres : name ∈ resolving
      · simp [resolveGo, hmemo, hres]
      · cases hhead : (incomingEdges incoming name
            (strOr (normalizeRouterName name) name)).head? with
        | none => simp [resolveGo, hmemo, hres, hhead]
        | some edge =>
          have hparent := mem_incomingEdges_parent incoming univ hinc name
            (strOr (normalizeRouterName name) name) edge hhead
          have hdec := measure_decrease univ resolving name hname hres
          rw [hm] at hdec
          have hrec := ih ((univ.filter
              (fun x => decide (x ∉ name :: resolving))).length) hdec a b
            (name :: resolving) resolved edge.parent hparent rfl
            (by omega) (by omega)
          simp [resolveGo, hmemo, hres, hhead, hrec]

theorem buildIncoming_mem_mounts (byNorm : List (String × String))
    (mounts : List RouterMountEdge) :
    ∀ k l, mapGet (buildIncoming byNorm mounts) k = some l → ∀ e ∈ l, e ∈ mounts := by
  suffices h : ∀ (ms : List RouterMountEdge)
      (inc : List (String × List RouterMountEdge)) (M : List RouterMountEdge),
      (∀ k l, mapGet inc k = some l → ∀ e ∈ l, e ∈ M) →
      (∀ m ∈ ms, m ∈ M) →
      ∀ k l, mapGet (ms.foldl (fun inc2 mount =>
        match mountKey byNorm mount with
        | none => inc2
        | some key => mapSet inc2 key (((mapGet inc2 key).getD []) ++ [mount])) inc) k =
          some l → ∀ e ∈ l, e ∈ M by
    intro k l hget e he
    exact h mounts [] mounts (by intro k2 l2 h2; simp [mapGet] at h2)
      (fun m hm => hm) k l hget e he
  intro ms
  induction ms with
  | nil => exact fun inc M hI _ => hI
  | cons mount ms2 ih =>
    intro inc M hI hM
    rw [List.foldl_cons]
    refine ih _ M ?_ (fun m hm => hM m (List.mem_cons_of_mem _ hm))
    cases hk : mountKey byNorm mount with
    | none => simpa [hk] using hI
    | some key =>
      simp only [hk]
      intro k2 l2 hget e he
      by_cases hkey : key = k2
      · subst hkey
        rw [mapGet_mapSet_same] at hget
        rcases List.mem_append.mp ((Option.some.injEq _ _ ▸ hget) ▸ he) with h | h
        · cases hold : mapGet inc key with
          | some lold =>
            rw [hold] at h
            exact hI key lold hold e h
          | none =>
            rw [hold] at h
            simp at h
        · rw [List.mem_singleton] at h
          exact h ▸ hM mount (List.mem_cons_self _ _)
      · rw [mapGet_mapSet_other _ _ _ _ hkey] at hget
        exact hI k2 l2 hget e he

theorem routerUniverse_stable (routers : List TrpcRouterMeta)
    (mounts : List RouterMountEdge) (k : Nat) :
    resolveRouterPathsFueled (resolveFuel routers mounts + k) routers mounts =
      resolveRouterPaths routers mounts := by
  unfold resolveRouterPaths resolveRouterPathsFueled
  have hinc := buildIncoming_mem_mounts (buildByNormalized routers) mounts
  have hinc2 : ∀ k2 l, mapGet (buildIncoming (buildByNormalized routers) mounts) k2 =
      some l → ∀ e ∈ l, e.parent ∈ routerUniverse routers mounts := by
    intro k2 l hget e he
    unfold routerUniverse
    exact List.mem_append_left _ (List.mem_map_of_mem _ (hinc k2 l hget e he))
  have hmeasure : ((routerUniverse routers mounts).filter
      (fun x => decide (x ∉ ([] : List String)))).length =
      (routerUniverse routers mounts).length := by
    congr 1
    refine List.filter_eq_self.mpr ?_
    intro a _
    simp
  have hfold : ∀ (rs : List TrpcRouterMeta) (resolved : List (String × String)),
      (∀ r2 ∈ rs, r2.name ∈ routerUniverse routers mounts) →
      rs.foldl (fun resolved2 r2 =>
        (resolveGo (buildIncoming (buildByNormalized routers) mounts)
          (computeRoots (buildIncoming (buildByNormalized routers) mounts) routers)
          (resolveFuel routers mounts + k) [] resolved2 r2.name).1) resolved =
      rs.foldl (fun resolved2 r2 =>
        (resolveGo (buildIncoming (buildByNormalized routers) mounts)
          (computeRoots (buildIncoming (buildByNormalized routers) mounts) routers)
          (resolveFuel routers mounts) [] resolved2 r2.name).1) resolved := by
    intro rs
    induction rs with
    | nil => intro resolved _; rfl
    | cons r2 rs2 ih =>
      intro resolved hnames
      rw [List.foldl_cons, List.foldl_cons]
      have hagree := resolveGo_fuel_agree
        (buildIncoming (buildByNormalized routers) mounts)
        (computeRoots (buildIncoming (buildByNormalized routers) mounts) routers)
        (routerUniverse routers mounts) hinc2
        ((routerUniverse routers mounts).length)
        (resolveFuel routers mounts + k) (resolveFuel routers mounts)
        [] resolved r2.name (hnames r2 (List.mem_cons_self _ _)) hmeasure
        (by unfold resolveFuel; omega) (by unfold resolveFuel; omega)
      rw [hagree]
      exact ih _ (fun r3 h3 => hnames r3 (List.mem_cons_of_mem _ h3))
  exact hfold routers [] (by
    intro r2 h2
    unfold routerUniverse
    exact List.mem_append_right _ (List.mem_map_of_mem _ h2))

theorem mapGet_truncIncoming (incoming : List (String × List RouterMountEdge))
    (k : String) :
    mapGet (truncIncoming incoming) k = (mapGet incoming k).map (fun l => l.take 1) := by
  induction incoming with
  | nil => simp [truncIncoming, mapGet]
  | cons hd tl ih =>
    rcases hd with ⟨k2, l2⟩
    by_cases h : k2 = k
    · simp [truncIncoming, mapGet, h]
    · simpa [truncIncoming, mapGet, h] using ih

theorem incomingEdges_trunc_head (incoming : List (String × List RouterMountEdge))
    (name norm : String) :
    (incomingEdges (truncIncoming incoming) name norm).head? =
      (incomingEdges incoming name norm).head? := by
  unfold incomingEdges
  rw [mapGet_truncIncoming, mapGet_truncIncoming]
  cases h1 : mapGet incoming name with
  | some l =>
    simp only [Option.map_some]
    cases l <;> rfl
  | none =>
    simp only [Option.map_none]
    cases h2 : mapGet incoming norm with
    | some l2 =>
      simp only [Option.map_some, Option.getD_some]
      cases l2 <;> rfl
    | none => rfl

theorem resolveGo_trunc (incoming : List (String × List RouterMountEdge))
    (roots : List String) :
    ∀ (fuel : Nat) (resolving : List String) (resolved : List (String × String))
      (name : String),
      resolveGo (truncIncoming incoming) roots fuel resolving resolved name =
        resolveGo incoming roots fuel resolving resolved name := by
  intro fuel
  induction fuel with
  | zero => intro resolving resolved name; rfl
  | succ f ih =>
    intro resolving resolved name
    cases hmemo : mapGet resolved name with
    | some v => simp [resolveGo, hmemo]
    | none =>
      by_cases hres : name ∈ resolving
      · simp [resolveGo, hmemo, hres]
      · have hhead := incomingEdges_trunc_head incoming name
          (strOr (normalizeRouterName name) name)
        cases hh : (incomingEdges incoming name
            (strOr (normalizeRouterName name) name)).head? with
        | none =>
          rw [hh] at hhead
          simp [resolveGo, hmemo, hres, hh, hhead]
        | some edge =>
          rw [hh] at hhead
          simp [resolveGo, hmemo, hres, hh, hhead, ih]

theorem buildIncoming_entries (byNorm : List (String × String))
    (mounts : List RouterMountEdge) (k : String) :
    ((mapGet (buildIncoming byNorm mounts) k).getD []) =
      mounts.filter (fun m => mountKey byNorm m == some k) := by
  suffices h : ∀ (ms : List RouterMountEdge)
      (inc : List (String × List RouterMountEdge)),
      ((mapGet (ms.foldl (fun inc2 mount =>
        match mountKey byNorm mount with
        | none => inc2
        | some key => mapSet inc2 key (((mapGet inc2 key).getD []) ++ [mount])) inc) k).getD []) =
      ((mapGet inc k).getD []) ++ ms.filter (fun m => mountKey byNorm m == some k) by
    have := h mounts []
    simpa [mapGet] using this
  intro ms
  induction ms with
  | nil => simp
  | cons mount ms2 ih =>
    intro inc
    rw [List.foldl_cons, List.filter_cons]
    cases hk : mountKey byNorm mount with
    | none =>
      rw [ih]
      simp
    | some key =>
      simp only [hk]
      by_cases hkey : key = k
      · subst hkey
        rw [ih, mapGet_mapSet_same]
        simp
      · rw [ih, mapGet_mapSet_other _ _ _ _ hkey]
        simp [hkey]

/-- C2: (1) the resolution terminates on every input, cycles included — the
fuelled recursion is stable at `resolveFuel`, adding fuel never changes the
router-path map; (2) re-entering a router that is currently being resolved
returns that router's own name; (3) a child's path is determined by its first
incoming edge in source-scan order — the incoming index lists mounts in scan
order and the resolution is invariant under truncating every edge list to its
head. -/
theorem trpc_router_resolution (routers : List TrpcRouterMeta)
    (mounts : List RouterMountEdge) (k : Nat)
    (incoming : List (String × List RouterMountEdge)) (roots : List String)
    (fuel : Nat) (resolving : List String) (resolved : List (String × String))
    (name : String)
    (hcyc : name ∈ resolving) (hmemo : mapGet resolved name = none) :
    (resolveRouterPathsFueled (resolveFuel routers mounts + k) routers mounts =
      resolveRouterPaths routers mounts) ∧
    (resolveGo incoming roots (fuel + 1) resolving resolved name = (resolved, name)) ∧
    (∀ k2, ((mapGet (buildIncoming (buildByNormalized routers) mounts) k2).getD []).head? =
      (mounts.filter (fun m =>
        mountKey (buildByNormalized routers) m == some k2)).head?) ∧
    (∀ (fuel2 : Nat) (resolving2 : List String) (resolved2 : List (String × String))
      (name2 : String),
      resolveGo (truncIncoming incoming) roots fuel2 resolving2 resolved2 name2 =
        resolveGo incoming roots fuel2 resolving2 resolved2 name2) := by
  refine ⟨routerUniverse_stable routers mounts k, ?_, ?_, ?_⟩
  · simp [resolveGo, hmemo, hcyc]
  · intro k2
    rw [buildIncoming_entries]
  · intro fuel2 resolving2 resolved2 name2
    exact resolveGo_trunc incoming roots fuel2 resolving2 resolved2 name2

theorem trpc_router_resolution_witness :
    ("a" ∈ ["a"]) ∧ mapGet ([] : List (String × String)) "a" = none ∧
    resolveGo [] [] 1 ["a"] [] "a" = ([], "a") :=
  ⟨by simp, rfl,
    (trpc_router_resolution [] [] 0 [] [] 0 ["a"] [] "a" (by simp) rfl).2.1⟩

/-! ## C8: determinism across runs

The only state surviving a run of the function-style App Router parser is the
module-level `routePathCache`; its entries always equal the pure route-path
derivation of their key, so a second run over the same files and options
yields the same output. -/

theorem routeCacheKey_inj (rootDir rel1 rel2 : String)
    (h : routeCacheKey rootDir rel1 = routeCacheKey rootDir rel2) : rel1 = rel2 := by
  unfold routeCacheKey at h
  have hdata := congrArg String.data h
  simp only [String.data_append] at hdata
  have hlist := List.append_cancel_left (List.append_cancel_left hdata)
  cases rel1
  cases rel2
  exact congrArg String.mk (by simpa using hlist)

theorem extractRoutePathCached_sound (rootDir rel : String) (cache : RouteCache)
    (hsound : ∀ rel2 v, mapGet cache (routeCacheKey rootDir rel2) = some v →
      v = extractRoutePathPure rel2) :
    (extractRoutePathCached rootDir rel cache).1 = extractRoutePathPure rel ∧
    (∀ rel2 v, mapGet (extractRoutePathCached rootDir rel cache).2
      (routeCacheKey rootDir rel2) = some v → v = extractRoutePathPure rel2) := by
  unfold extractRoutePathCached
  cases hhit : mapGet cache (routeCacheKey rootDir rel) with
  | some cached =>
    simp only [hhit]
    exact ⟨hsound rel cached hhit, hsound⟩
  | none =>
    simp only [hhit]
    refine ⟨by trivial, ?_⟩
    intro rel2 v hget
    by_cases hk : routeCacheKey rootDir rel = routeCacheKey rootDir rel2
    · rw [← hk, mapGet_mapSet_same] at hget
      have hrel := routeCacheKey_inj rootDir rel rel2 hk
      subst hrel
      exact ((Option.some.injEq _ _).mp hget).symm
    · rw [mapGet_mapSet_other _ _ _ _ hk] at hget
      exact hsound rel2 v hget

theorem parseAppRouterFileM_sound (rootDir : String) (file : AppFileModel)
    (fuel : Nat) (cache : RouteCache)
    (hsound : ∀ rel2 v, mapGet cache (routeCacheKey rootDir rel2) = some v →
      v = extractRoutePathPure rel2) :
    (parseAppRouterFileM rootDir file fuel cache).1 =
      (appMethodSet file fuel).map
        (buildAppHandler file (extractRoutePathPure file.relPath)) ∧
    (∀ rel2 v, mapGet (parseAppRouterFileM rootDir file fuel cache).2
      (routeCacheKey rootDir rel2) = some v → v = extractRoutePathPure rel2) := by
  have h := extractRoutePathCached_sound rootDir file.relPath cache hsound
  refine ⟨?_, h.2⟩
  show (appMethodSet file fuel).map
      (buildAppHandler file (extractRoutePathCached rootDir file.relPath cache).1) =
    (appMethodSet file fuel).map
      (buildAppHandler file (extractRoutePathPure file.relPath))
  rw [h.1]

theorem parseScan_deterministic (rootDir : String) (fuel : Nat) :
    ∀ (files : List AppFileModel) (acc : List NextAppRouteHandler)
      (c1 c2 : RouteCache),
      (∀ rel2 v, mapGet c1 (routeCacheKey rootDir rel2) = some v →
        v = extractRoutePathPure rel2) →
      (∀ rel2 v, mapGet c2 (routeCacheKey rootDir rel2) = some v →
        v = extractRoutePathPure rel2) →
      (files.foldl (fun (acc2 : List NextAppRouteHandler × RouteCache) file =>
        if file.isTrpcContent then acc2
        else if isAppRouterFile (rootDir ++ "/" ++ file.relPath) then
          let step := parseAppRouterFileM rootDir file fuel acc2.2
          (acc2.1 ++ step.1, step.2)
        else acc2) (acc, c1)).1 =
      (files.foldl (fun (acc2 : List NextAppRouteHandler × RouteCache) file =>
        if file.isTrpcContent then acc2
        else if isAppRouterFile (rootDir ++ "/" ++ file.relPath) then
          let step := parseAppRouterFileM rootDir file fuel acc2.2
          (acc2.1 ++ step.1, step.2)
        else acc2) (acc, c2)).1 ∧
      (∀ rel2 v, mapGet (files.foldl (fun (acc2 : List NextAppRouteHandler × RouteCache) file =>
        if file.isTrpcContent then acc2
        else if isAppRouterFile (rootDir ++ "/" ++ file.relPath) then
          let step := parseAppRouterFileM rootDir file fuel acc2.2
          (acc2.1 ++ step.1, step.2)
        else acc2) (acc, c1)).2 (routeCacheKey rootDir rel2) = some v →
        v = extractRoutePathPure rel2) := by
  intro files
  induction files with
  | nil => exact fun acc c1 c2 h1 _ => ⟨rfl, h1⟩
  | cons file fs ih =>
    intro acc c1 c2 h1 h2
    rw [List.foldl_cons, List.foldl_cons]
    by_cases htrpc : file.isTrpcContent
    · simp only [htrpc, if_true]
      exact ih acc c1 c2 h1 h2
    · simp only [htrpc, if_false, Bool.false_eq_true]
      by_cases happ : isAppRouterFile (rootDir ++ "/" ++ file.relPath) = true
      · simp only [happ, if_true]
        have hs1 := parseAppRouterFileM_sound rootDir file fuel c1 h1
        have hs2 := parseAppRouterFileM_sound rootDir file fuel c2 h2
        have hacc : acc ++ (parseAppRouterFileM rootDir file fuel c1).1 =
            acc ++ (parseAppRouterFileM rootDir file fuel c2).1 := by
          rw [hs1.1, hs2.1]
        rw [hacc]
        exact ih _ _ _ hs1.2 hs2.2
      · simp only [happ, if_false, Bool.false_eq_true]
        exact ih acc c1 c2 h1 h2

/-- C8: running the App Router extractor twice over the same files, root and
options yields identical route output; the second run starts from the cache
the first run left behind in the module-level `routePathCache`, and cache
entries always agree with the pure route-path derivation. -/
theorem extractor_deterministic (rootDir : String) (files : List AppFileModel)
    (fuel : Nat) :
    (parseNextAppRoutesFn rootDir files fuel
      (parseNextAppRoutesFn rootDir files fuel []).2).1 =
    (parseNextAppRoutesFn rootDir files fuel []).1 := by
  have hempty : ∀ rel2 v, mapGet ([] : RouteCache) (routeCacheKey rootDir rel2) =
      some v → v = extractRoutePathPure rel2 := by
    intro rel2 v hv
    simp [mapGet] at hv
  have hfirst := parseScan_deterministic rootDir fuel files [] [] [] hempty hempty
  have hsecond := parseScan_deterministic rootDir fuel files []
    (parseNextAppRoutesFn rootDir files fuel []).2 [] hfirst.2 hempty
  unfold parseNextAppRoutesFn
  simp only []
  rw [show (parseNextAppRoutesFn rootDir files fuel []).2 =
    (files.foldl (fun (acc2 : List NextAppRouteHandler × RouteCache) file =>
      if file.isTrpcContent then acc2
      else if isAppRouterFile (rootDir ++ "/" ++ file.relPath) then
        let step := parseAppRouterFileM rootDir file fuel acc2.2
        (acc2.1 ++ step.1, step.2)
      else acc2) ([], [])).2 from rfl] at hsecond
  rw [hsecond.1]

/-! ## C7: missing compiler config (corrected)

`BaseParser.parse` returns an empty list and warns once, but the
function-style parsers log the same situation through their verbose-only
`console.log` debug sink — no warn-level message is emitted there. -/

/-- C7 counterexample: the function-style `parseTRPCRouters` with no
`tsconfig.json` (and no explicit `tsconfigPath`) returns an empty result and
emits zero warn-level messages, not one. -/
theorem fn_missing_tsconfig_counterexample :
    (parseTRPCRoutersFn ⟨false, false, false⟩ ([], [])).1 = [] ∧
    warnCount (parseTRPCRoutersFn ⟨false, false, false⟩ ([], [])).2 = 0 ∧
    warnCount (parseTRPCRoutersFn ⟨false, false, false⟩ ([], [])).2 ≠ 1 := by
  refine ⟨rfl, rfl, ?_⟩
  intro h
  rw [show warnCount (parseTRPCRoutersFn ⟨false, false, false⟩ ([], [])).2 = 0
    from rfl] at h
  exact absurd h (by decide)

/-- C7 (amended): with the workspace root present but no `tsconfig.json`, a
class-based parser that requires the config returns an empty route list with
exactly one warn-level message and no exception; the function-style parsers
return an empty result without any warn-level message (only a verbose debug
line). -/
theorem missing_tsconfig_policy (cfg : BaseParserCfg) (env : ParseEnv)
    (inner : Except String (List ParsedRoute) × List LogEntry) (fenv : FnParseEnv)
    (rest : List ParsedRoute × List LogEntry)
    (hreq : cfg.requiresTsConfig = true) (hroot : env.rootDirNonEmpty = true)
    (hts : env.tsconfigExists = false)
    (hfg : fenv.tsconfigPathGiven = false) (hfe : fenv.tsconfigExists = false) :
    (baseParse cfg env inner).1 = Except.ok [] ∧
    warnCount (baseParse cfg env inner).2 = 1 ∧
    (parseTRPCRoutersFn fenv rest).1 = [] ∧
    warnCount (parseTRPCRoutersFn fenv rest).2 = 0 := by
  have htry : baseParseTry cfg env inner =
      (Except.ok [],
        [(LogLevel.debug, "Parsing " ++ cfg.name ++ " routes with AST"),
         (LogLevel.warn, "No tsconfig.json found, cannot parse routes without AST")]) := by
    unfold baseParseTry
    rw [hroot, hts, hreq]
    simp
  have hbase : baseParse cfg env inner =
      (Except.ok [],
        [(LogLevel.debug, "Parsing " ++ cfg.name ++ " routes with AST"),
         (LogLevel.warn, "No tsconfig.json found, cannot parse routes without AST")]) := by
    unfold baseParse
    rw [htry]
  have hfn : parseTRPCRoutersFn fenv rest =
      ([], fnDebugLog fenv "Parsing tRPC routers with AST" ++
        fnDebugLog fenv "No tsconfig.json found, cannot parse routes without AST") := by
    unfold parseTRPCRoutersFn
    rw [hfg, hfe]
    simp
  refine ⟨by rw [hbase], by rw [hbase]; rfl, by rw [hfn], ?_⟩
  rw [hfn]
  rcases fenv with ⟨g, e, verbose⟩
  cases verbose <;> rfl

theorem missing_tsconfig_policy_witness :
    (baseParse trpcParserCfg ⟨true, false⟩ (Except.ok [], [])).1 = Except.ok [] ∧
    warnCount (baseParse trpcParserCfg ⟨true, false⟩ (Except.ok [], [])).2 = 1 ∧
    (parseTRPCRoutersFn ⟨false, false, true⟩ ([], [])).1 = [] ∧
    warnCount (parseTRPCRoutersFn ⟨false, false, true⟩ ([], [])).2 = 0 :=
  missing_tsconfig_policy trpcParserCfg ⟨true, false⟩ (Except.ok [], [])
    ⟨false, false, true⟩ ([], []) rfl rfl rfl rfl rfl

/-! ## C9: caller contract violations (corrected)

`BaseParser.parse` never lets an exception escape: its catch-all logs at
error level and returns an empty list, and a non-existent workspace root goes
through the missing-tsconfig warn path and returns `[]` normally. -/

/-- C9 counterexample: with a non-existent root (root string non-empty, no
`tsconfig.json` under it) and an inner phase that throws, `BaseParser.parse`
still returns a normal empty result — no exception surfaces. -/
theorem base_parse_no_exception_counterexample :
    (baseParse trpcParserCfg ⟨true, false⟩
      (Except.error "ENOENT: no such file or directory", [])).1 =
      Except.ok ([] : List ParsedRoute) ∧
    (match (baseParse trpcParserCfg ⟨true, false⟩
      (Except.error "ENOENT: no such file or directory", [])).1 with
      | Except.ok _ => true
      | Except.error _ => false) = true := by
  exact ⟨rfl, rfl⟩

/-- C9 (amended): `BaseParser.parse` always returns a normal result — the
catch-all converts any inner exception into an empty route list with an
error-level log entry — and under a non-existent root (no tsconfig below it)
the result is the empty route list. -/
theorem base_parse_never_throws (cfg : BaseParserCfg) (env : ParseEnv)
    (inner : Except String (List ParsedRoute) × List LogEntry)
    (hreq : cfg.requiresTsConfig = true) (hroot : env.rootDirNonEmpty = true)
    (hts : env.tsconfigExists = false) :
    (∀ (cfg2 : BaseParserCfg) (env2 : ParseEnv)
      (inner2 : Except String (List ParsedRoute) × List LogEntry),
      ∃ routes log, baseParse cfg2 env2 inner2 = (Except.ok routes, log)) ∧
    (baseParse cfg env inner).1 = Except.ok [] := by
  constructor
  · intro cfg2 env2 inner2
    rcases htry : baseParseTry cfg2 env2 inner2 with ⟨res, log⟩
    cases res with
    | ok routes =>
      refine ⟨routes, log, ?_⟩
      unfold baseParse
      rw [htry]
    | error e =>
      refine ⟨[], log ++ [(LogLevel.error,
        "Failed to parse " ++ cfg2.name ++ " routes with AST")], ?_⟩
      unfold baseParse
      rw [htry]
  · have htry : baseParseTry cfg env inner =
        (Except.ok [],
          [(LogLevel.debug, "Parsing " ++ cfg.name ++ " routes with AST"),
           (LogLevel.warn, "No tsconfig.json found, cannot parse routes without AST")]) := by
      unfold baseParseTry
      rw [hroot, hts, hreq]
      simp
    unfold baseParse
    rw [htry]

theorem base_parse_never_throws_witness :
    (baseParse nextPagesParserCfg ⟨true, false⟩ (Except.ok [], [])).1 =
      Except.ok [] :=
  (base_parse_never_throws nextPagesParserCfg ⟨true, false⟩ (Except.ok [], [])
    rfl rfl rfl).2

end WatchApi
